import Mathlib

/-!
# coredns-tailscale: the snapshot transformer `processNetMap`

A shallow embedding of `tailscale.go`.  Go strings are Lean strings, Go slices
are lists, a Go map is a function into `Option` (`none` for an absent key), and
a Go panic is the error side of `Except Panic`.

The library types the code consumes (`netip.Addr`, `netip.Prefix`,
`tailcfg.Node`, `tailcfg.NodeView`, `netmap.NetworkMap`) are modelled with the
fields and methods that `processNetMap` touches.
-/

namespace CoreDNS

/-! ## Go runtime -/

/-- A Go string. -/
abbrev Str := String

/-- The two run-time panics the modelled code could raise. -/
inductive Panic where
  /-- Nil pointer dereference: a method called on a `NodeView` that wraps no node. -/
  | nilDeref
  /-- Assignment to an entry of a nil map. -/
  | nilMapAssign
  deriving DecidableEq, Repr

/-- Go `strings.HasPrefix` on the characters of the two strings. -/
def hasPrefix : List Char → List Char → Bool
  | _, [] => true
  | [], _ :: _ => false
  | c :: s, p :: pre => c == p && hasPrefix s pre

/-- Go `strings.CutPrefix(s, pre)`: `(s[len(pre):], true)` when `s` starts with
`pre`, `(s, false)` otherwise. -/
def cutPrefix (s pre : String) : String × Bool :=
  if hasPrefix s.data pre.data then (String.mk (s.data.drop pre.data.length), true)
  else (s, false)

/-! ## `regexp`: the pattern `(?P<hostnameWithoutSuffix>.*)-\d+` -/

/-- The class `\d` of Go regular expressions: the ASCII digits. -/
def isDigit (c : Char) : Bool := decide ('0' ≤ c) && decide (c ≤ '9')

/-- A backtracking match of `(.*)-\d+` that starts at the head of the input.
`.` is any character but a line feed and `.*` is greedy: the character at
the head is first given to `.*`, and only when the rest cannot be matched that
way does `.*` stop and `-\d+` start here.  `\d+` is greedy too.  The result is
the text of the capture group and the text `-\d+` matched. -/
def matchHere : List Char → Option (List Char × List Char)
  | [] => none
  | c :: rest =>
    match (if c = '\n' then none else matchHere rest) with
    | some (g, m) => some (c :: g, m)
    | none =>
      if c = '-' then
        match rest.takeWhile isDigit with
        | [] => none
        | d :: ds => some ([], '-' :: d :: ds)
      else none

/-- The leftmost match of the unanchored pattern: the first start position
from which `matchHere` succeeds. -/
def findMatch : List Char → Option (List Char × List Char)
  | [] => none
  | c :: rest =>
    match matchHere (c :: rest) with
    | some r => some r
    | none => findMatch rest

/-- Go `re.FindStringSubmatch(s)` for `re = (?P<hostnameWithoutSuffix>.*)-\d+`:
`nil` when nothing matches, else the slice of the whole match and group 1. -/
def FindStringSubmatch (s : String) : Option (List String) :=
  match findMatch s.data with
  | none => none
  | some (g, m) => some [String.mk (g ++ m), String.mk g]

/-! ## `net/netip` -/

/-- The `z` field of `netip.Addr`: the zero address, IPv4, IPv6 without a zone,
IPv6 with a zone. -/
inductive AddrZ where
  | z0
  | z4
  | z6noz
  | z6zone (zone : String)
  deriving DecidableEq, Repr

/-- Go `netip.Addr`: a 128-bit value in two 64-bit halves and the family. -/
structure Addr where
  hi : Nat
  lo : Nat
  z : AddrZ
  deriving DecidableEq, Repr

namespace Addr

/-- Go `Addr.Is4`. -/
def Is4 (ip : Addr) : Bool := decide (ip.z = AddrZ.z4)

/-- Go `Addr.Is6`. -/
def Is6 (ip : Addr) : Bool := decide (ip.z ≠ AddrZ.z0) && decide (ip.z ≠ AddrZ.z4)

/-- Go `Addr.Is4In6`. -/
def Is4In6 (ip : Addr) : Bool :=
  ip.Is6 && decide (ip.hi % 2 ^ 64 = 0) && decide ((ip.lo % 2 ^ 64) / 2 ^ 32 = 0xffff)

/-- Go `Addr.Zone`. -/
def Zone (ip : Addr) : String :=
  match ip.z with
  | AddrZ.z6zone zone => zone
  | _ => ""

/-- Go `Addr.v4(i)`: the i-th byte of the IPv4 address. -/
def v4 (ip : Addr) (i : Nat) : Nat := (ip.lo / 2 ^ ((3 - i) * 8)) % 2 ^ 8

/-- Go `Addr.v6u16(i)`: the i-th 16-bit group of the IPv6 address. -/
def v6u16 (ip : Addr) (i : Nat) : Nat :=
  ((if (i / 4) % 2 = 0 then ip.hi else ip.lo) / 2 ^ ((3 - i % 4) * 16)) % 2 ^ 16

/-- The digit table of `net/netip`. -/
def digits : List Char := "0123456789abcdef".data

/-- The digit at one position of the table. -/
def digit (n : Nat) : Char := digits.getD n '0'

/-- Go `appendDecimal` for one byte. -/
def appendDecimal (b : List Char) (x : Nat) : List Char :=
  let b := if x ≥ 100 then b ++ [digit (x / 100)] else b
  let b := if x ≥ 10 then b ++ [digit (x / 10 % 10)] else b
  b ++ [digit (x % 10)]

/-- Go `appendHex` for one 16-bit group. -/
def appendHex (b : List Char) (x : Nat) : List Char :=
  let b := if x ≥ 0x1000 then b ++ [digit (x / 2 ^ 12)] else b
  let b := if x ≥ 0x100 then b ++ [digit (x / 2 ^ 8 % 16)] else b
  let b := if x ≥ 0x10 then b ++ [digit (x / 2 ^ 4 % 16)] else b
  b ++ [digit (x % 16)]

/-- Go `Addr.appendTo4`. -/
def appendTo4 (ip : Addr) (ret : List Char) : List Char :=
  let ret := appendDecimal ret (ip.v4 0)
  let ret := ret ++ ['.']
  let ret := appendDecimal ret (ip.v4 1)
  let ret := ret ++ ['.']
  let ret := appendDecimal ret (ip.v4 2)
  let ret := ret ++ ['.']
  appendDecimal ret (ip.v4 3)

/-- The `%zone` suffix that `appendTo6` and `appendTo4In6` add for a zoned address. -/
def appendZone (ip : Addr) (ret : List Char) : List Char :=
  if ip.z ≠ AddrZ.z6noz then ret ++ ['%'] ++ ip.Zone.data else ret

/-- Go `Addr.appendTo4In6`. -/
def appendTo4In6 (ip : Addr) (ret : List Char) : List Char :=
  let ret := ret ++ "::ffff:".data
  let ret := ip.appendTo4 ret
  ip.appendZone ret

/-- The first loop of `appendTo6`: the longest run of two or more zero groups,
the earliest one on a tie, as `(zeroStart, zeroEnd)`; `(255, 255)` when none. -/
def zeroRun (ip : Addr) : Nat × Nat :=
  (List.range 8).foldl
    (fun (z : Nat × Nat) i =>
      let j := i + ((List.range' i (8 - i)).takeWhile (fun k => ip.v6u16 k == 0)).length
      if j - i ≥ 2 ∧ j - i > z.2 - z.1 then (i, j) else z)
    (255, 255)

/-- The second loop of `appendTo6`, from group `i` on (`fuel` bounds the
number of iterations, at most eight). -/
def appendGroups (ip : Addr) (zeroStart zeroEnd : Nat) : Nat → Nat → List Char → List Char
  | 0, _, ret => ret
  | fuel + 1, i, ret =>
    if i < 8 then
      if i = zeroStart then
        let ret := ret ++ [':', ':']
        let i := zeroEnd
        if i ≥ 8 then ret
        else appendGroups ip zeroStart zeroEnd fuel (i + 1) (appendHex ret (ip.v6u16 i))
      else
        let ret := if i > 0 then ret ++ [':'] else ret
        appendGroups ip zeroStart zeroEnd fuel (i + 1) (appendHex ret (ip.v6u16 i))
    else ret

/-- Go `Addr.appendTo6`. -/
def appendTo6 (ip : Addr) (ret : List Char) : List Char :=
  let z := ip.zeroRun
  let ret := appendGroups ip z.1 z.2 8 0 ret
  ip.appendZone ret

/-- Go `Addr.String`. -/
def String (ip : Addr) : Str :=
  match ip.z with
  | AddrZ.z0 => "invalid IP"
  | AddrZ.z4 => (ip.appendTo4 []).asString
  | _ => if ip.Is4In6 then (ip.appendTo4In6 []).asString else (ip.appendTo6 []).asString

end Addr

/-- Go `netip.Prefix`: an address and a prefix length. -/
structure Prefix where
  ip : Addr
  bitsPlusOne : Nat
  deriving DecidableEq, Repr

/-- Go `Prefix.Addr`. -/
def Prefix.Addr (p : Prefix) : Addr := p.ip

/-! ## `tailcfg` and `netmap` -/

/-- Go `tailcfg.Node`, with the fields `processNetMap` reads.  `Sharer` is a
`tailcfg.UserID`, an `int64`. -/
structure Node where
  ComputedName : String
  Addresses : List Prefix := []
  Tags : List String := []
  IsWireGuardOnly : Bool := false
  Sharer : Int := 0
  deriving DecidableEq, Repr

/-- Go `tailcfg.UserID.IsZero`. -/
def UserID.IsZero (u : Int) : Bool := decide (u = 0)

/-- Go `tailcfg.NodeView`: a read-only view that wraps a pointer to a `Node`;
the zero view wraps the nil pointer. -/
structure NodeView where
  ptr : Option Node
  deriving DecidableEq, Repr

/-- Go `(*Node).View`. -/
def Node.View (n : Node) : NodeView := ⟨some n⟩

namespace NodeView

/-- Go `NodeView.Valid`. -/
def Valid (v : NodeView) : Bool := v.ptr.isSome

/-- The dereference every accessor of a view starts with: it panics on the
zero view. -/
def deref (v : NodeView) : Except Panic Node :=
  match v.ptr with
  | none => throw Panic.nilDeref
  | some n => pure n

/-- Go `NodeView.IsWireGuardOnly`. -/
def IsWireGuardOnly (v : NodeView) : Except Panic Bool := v.deref >>= fun n => pure n.IsWireGuardOnly

/-- Go `NodeView.Sharer`. -/
def Sharer (v : NodeView) : Except Panic Int := v.deref >>= fun n => pure n.Sharer

/-- Go `NodeView.ComputedName`. -/
def ComputedName (v : NodeView) : Except Panic String := v.deref >>= fun n => pure n.ComputedName

/-- Go `NodeView.Addresses().AsSlice()`. -/
def Addresses (v : NodeView) : Except Panic (List Prefix) := v.deref >>= fun n => pure n.Addresses

/-- Go `NodeView.Tags().AsSlice()`. -/
def Tags (v : NodeView) : Except Panic (List String) := v.deref >>= fun n => pure n.Tags

end NodeView

/-- Go `netmap.NetworkMap`, with the two fields `processNetMap` reads. -/
structure NetworkMap where
  SelfNode : NodeView
  Peers : List NodeView := []
  deriving DecidableEq, Repr

/-! ## The plugin state -/

/-- Go `map[string][]string`: record kind to values. -/
abbrev Records := String → Option (List String)

/-- Go `map[string]map[string][]string`: hostname to records. -/
abbrev Entries := String → Option Records

/-- The empty inner map, `make(map[string][]string)`. -/
def emptyRecords : Records := fun _ => none

/-- The empty table, `map[string]map[string][]string{}`. -/
def emptyEntries : Entries := fun _ => none

/-- Go `tailscale.LocalClient`, with the field `start` sets. -/
structure LocalClient where
  Socket : String
  deriving DecidableEq, Repr

/-- Go `Tailscale`: the plugin state.  The handler `next`, the fallthrough
set `fall` and the lock `mu` are left out: the modelled functions never
assign them. -/
structure Tailscale where
  zone : String
  socketPath : String
  lc : Option LocalClient
  entries : Entries

/-- Reading `entries[name][kind]` the way Go does: a missing key at either
level yields the nil slice. -/
def values (entries : Entries) (name kind : String) : List String :=
  match entries name with
  | none => []
  | some recs => (recs kind).getD []

/-- Whether `name` is a key of the table: the `ok` of `_, ok := entries[name]`. -/
def hasKey (entries : Entries) (name : String) : Bool := (entries name).isSome

/-- The statement `if _, ok := entries[name]; !ok { entries[name] = make(map[string][]string) }`. -/
def ensure (entries : Entries) (name : String) : Entries :=
  if hasKey entries name then entries else Function.update entries name (some emptyRecords)

/-- The statement `entries[name][kind] = append(entries[name][kind], value)`.
Go panics when `entries[name]` is the nil map. -/
def appendValue (entries : Entries) (name kind value : String) : Except Panic Entries :=
  match entries name with
  | none => throw Panic.nilMapAssign
  | some recs =>
    pure (Function.update entries name
      (some (Function.update recs kind (some ((recs kind).getD [] ++ [value])))))

/-- The address loop (lines 128-135, and again 154-161 for the grouped name):
every IPv4 address goes to the `A` list of `name`, every IPv6 address to its
`AAAA` list, any other address is passed over. -/
def addAddresses (entries : Entries) (name : String) (addresses : List Prefix) :
    Except Panic Entries :=
  addresses.foldlM
    (fun entries pfx =>
      let addr := pfx.Addr
      if addr.Is4 then appendValue entries name "A" addr.String
      else if addr.Is6 then appendValue entries name "AAAA" addr.String
      else pure entries)
    entries

/-- The value of `hostnameWithoutSuffix` after lines 141-145. -/
def hostnameWithoutSuffix (hostname : String) : String :=
  match FindStringSubmatch hostname with
  | some submatches => submatches.getD 1 ""
  | none => hostname

/-- The tag loop (lines 166-173). -/
def addTags (zone hostname : String) (entries : Entries) (tags : List String) :
    Except Panic Entries :=
  tags.foldlM
    (fun entries raw =>
      match cutPrefix raw "tag:cname-" with
      | (tag, true) =>
        appendValue (ensure entries tag) tag "CNAME" (hostname ++ "." ++ zone ++ ".")
      | (_, false) => pure entries)
    entries

/-- One iteration of the loop over `nodes` (lines 109-175).  The two
`continue` statements return the table as it is. -/
def processNode (zone : String) (entries : Entries) (node : NodeView) :
    Except Panic Entries := do
  -- lines 110-113
  let wireGuardOnly ← node.IsWireGuardOnly
  if wireGuardOnly then pure entries else
  -- lines 114-118
  let sharer ← node.Sharer
  if !UserID.IsZero sharer then pure entries else
  -- lines 120-135
  let hostname ← node.ComputedName
  let entries := ensure entries hostname
  let addresses ← node.Addresses
  let entries ← addAddresses entries hostname addresses
  -- lines 141-162
  let hostnameWithoutSuffix := hostnameWithoutSuffix hostname
  let entries ←
    if hostnameWithoutSuffix ≠ hostname then do
      let entries := ensure entries hostnameWithoutSuffix
      let addresses ← node.Addresses
      addAddresses entries hostnameWithoutSuffix addresses
    else pure entries
  -- lines 165-174
  let tags ← node.Tags
  if tags.length > 0 then addTags zone hostname entries tags else pure entries

/-- Go `(*Tailscale).processNetMap`: `nil` is ignored; otherwise the table
is built afresh from `self` then the peers and installed in the state.  The
argument of the `Debugf` call of line 104 is evaluated before the loop. -/
def processNetMap (t : Tailscale) (nm : Option NetworkMap) : Except Panic Tailscale :=
  match nm with
  | none => pure t
  | some nm => do
    -- line 104
    let _ ← nm.SelfNode.Tags
    -- lines 105-106
    let nodes := [nm.SelfNode] ++ nm.Peers
    -- lines 108-175
    let entries ← nodes.foldlM (processNode t.zone) emptyEntries
    -- lines 177-179
    pure { t with entries := entries }

/-! ## Total counterparts of the table operations and the terms of the claims -/

/-- The table after `entries[name][kind] = append(entries[name][kind], value)`
when `name` is a key. -/
def push (entries : Entries) (name kind value : String) : Entries :=
  Function.update entries name
    (some (Function.update ((entries name).getD emptyRecords) kind
      (some (values entries name kind ++ [value]))))

/-- The table after the address loop for `name`. -/
def pushAddresses (entries : Entries) (name : String) (addresses : List Prefix) : Entries :=
  addresses.foldl
    (fun entries pfx =>
      if pfx.Addr.Is4 then push entries name "A" pfx.Addr.String
      else if pfx.Addr.Is6 then push entries name "AAAA" pfx.Addr.String
      else entries)
    entries

/-- The table after the tag loop of a node named `hostname`. -/
def pushTags (zone hostname : String) (entries : Entries) (tags : List String) : Entries :=
  tags.foldl
    (fun entries raw =>
      match cutPrefix raw "tag:cname-" with
      | (tag, true) => push (ensure entries tag) tag "CNAME" (hostname ++ "." ++ zone ++ ".")
      | (_, false) => entries)
    entries

/-- The table after one loop iteration for a node that is not skipped. -/
def nodeEntries (zone : String) (entries : Entries) (n : Node) : Entries :=
  let hostname := n.ComputedName
  let entries := pushAddresses (ensure entries hostname) hostname n.Addresses
  let base := hostnameWithoutSuffix hostname
  let entries :=
    if base ≠ hostname then pushAddresses (ensure entries base) base n.Addresses else entries
  pushTags zone hostname entries n.Tags

/-- A node the loop does not skip: not WireGuard-only and with a zero sharer. -/
def eligible (n : Node) : Bool := !n.IsWireGuardOnly && UserID.IsZero n.Sharer

/-- The table the loop builds from a list of nodes. -/
def buildEntries (zone : String) (nodes : List Node) : Entries :=
  (nodes.filter eligible).foldl (nodeEntries zone) emptyEntries

/-- The network map whose self node and peers are the given nodes, each behind a valid view. -/
def snapshot (self : Node) (peers : List Node) : NetworkMap :=
  { SelfNode := self.View, Peers := peers.map Node.View }

/-- The string forms of the IPv4 addresses of a list of prefixes, in order. -/
def ipv4Strings (addresses : List Prefix) : List String :=
  (addresses.filter (fun p => p.Addr.Is4)).map (fun p => p.Addr.String)

/-- The string forms of the IPv6 addresses of a list of prefixes, in order. -/
def ipv6Strings (addresses : List Prefix) : List String :=
  (addresses.filter (fun p => p.Addr.Is6)).map (fun p => p.Addr.String)

/-- The values the address loop appends under one record kind. -/
def addressValues (kind : String) (addresses : List Prefix) : List String :=
  if kind = "A" then ipv4Strings addresses
  else if kind = "AAAA" then ipv6Strings addresses
  else []

/-- The `CNAME` targets the tag loop of node `n` appends under alias `a`: one
per tag equal to `tag:cname-` followed by `a`, in tag order. -/
def aliasTargets (zone : String) (n : Node) (a : String) : List String :=
  (n.Tags.filter (fun raw => decide (raw = "tag:cname-" ++ a))).map
    (fun _ => n.ComputedName ++ "." ++ zone ++ ".")

/-- Whether node `n` feeds the address lists of key `k`: `k` is its computed
hostname, or `k` is its `hostnameWithoutSuffix` and that differs from the hostname. -/
def namedBy (k : String) (n : Node) : Bool :=
  decide (n.ComputedName = k) ||
    (decide (hostnameWithoutSuffix n.ComputedName = k) &&
      decide (hostnameWithoutSuffix n.ComputedName ≠ n.ComputedName))

/-- What one eligible node appends to the list of kind `kd` under key `k`. -/
def contribution (zone : String) (n : Node) (k kd : String) : List String :=
  (if namedBy k n = true then addressValues kd n.Addresses else []) ++
    (if kd = "CNAME" then aliasTargets zone n k else [])

/-- Every list present in the table is non-empty and filed under one of the
three record kinds. -/
def RecordsOK (e : Entries) : Prop :=
  ∀ k recs kd vs, e k = some recs → recs kd = some vs →
    (kd = "A" ∨ kd = "AAAA" ∨ kd = "CNAME") ∧ vs ≠ []

/-! ## The inputs of `tailscale_test.go` -/

/-- Go `netip.MustParsePrefix("a.b.c.d/32")`: an IPv4 address is stored in
the low 32 bits, under the `::ffff:0:0/96` marker. -/
def prefix4 (a b c d : Nat) : Prefix :=
  ⟨⟨0, 0xffff00000000 + a * 2 ^ 24 + b * 2 ^ 16 + c * 2 ^ 8 + d, AddrZ.z4⟩, 33⟩

/-- Go `netip.MustParsePrefix("<address>/128")` for the IPv6 address with the halves `hi` and `lo`. -/
def prefix6 (hi lo : Nat) : Prefix := ⟨⟨hi, lo, AddrZ.z6noz⟩, 129⟩

/-- The plugin state of the tests, `&Tailscale{zone: "example.com"}`. -/
def ts : Tailscale := ⟨"example.com", "", none, emptyEntries⟩

/-- The self node of `TestProcessNetMap`. -/
def self : Node :=
  { ComputedName := "self"
    Addresses := [prefix4 100 64 0 1, prefix6 0xfd7a115ca1e00000 1]
    Tags := ["tag:cname-app"] }

/-- The first peer of `TestProcessNetMap`. -/
def peer : Node :=
  { ComputedName := "peer"
    Addresses := [prefix4 100 64 0 2, prefix6 0xfd7a115ca1e00000 2]
    Tags := ["tag:cname-app"] }

/-- The shared peer of `TestProcessNetMap`. -/
def shared : Node :=
  { ComputedName := "shared"
    Sharer := 1
    Addresses := [prefix4 100 64 0 3, prefix6 0xfd7a115ca1e00000 3]
    Tags := ["tag:cname-app"] }

/-- The Mullvad exit node of `TestProcessNetMap`. -/
def mullvad : Node :=
  { ComputedName := "mullvad"
    IsWireGuardOnly := true
    Addresses := [prefix4 100 64 0 4, prefix6 0xfd7a115ca1e00000 4]
    Tags := ["tag:cname-app"] }

/-- The node `web1` of `TestProcessNetMapHostnameGrouping`. -/
def web1 : Node :=
  { ComputedName := "web-1"
    Addresses := [prefix4 100 64 0 10, prefix6 0xfd7a115ca1e00000 0x10] }

/-- The node `web2` of `TestProcessNetMapHostnameGrouping`. -/
def web2 : Node :=
  { ComputedName := "web-2"
    Addresses := [prefix4 100 64 0 11, prefix6 0xfd7a115ca1e00000 0x11] }

/-- The node `web3` of `TestProcessNetMapHostnameGrouping`. -/
def web3 : Node :=
  { ComputedName := "web-3"
    Addresses := [prefix4 100 64 0 12, prefix6 0xfd7a115ca1e00000 0x12] }

/-- Whether a string ends in a hyphen followed by one or more decimal digits
at the end of the string: the suffix pattern in the words of the specification. -/
def endsInHyphenDigits (s : String) : Bool :=
  let digitsAtEnd := s.data.reverse.takeWhile isDigit
  !digitsAtEnd.isEmpty && (s.data.reverse.drop digitsAtEnd.length).head? == some '-'

/-- A node whose hostname has a hyphen and a digit in the middle, not at the end. -/
def web1a : Node :=
  { ComputedName := "web-1a"
    Addresses := [prefix4 100 64 0 1] }

/-! ## `start` and the subscription loop `watchIPNBus` -/

/-- Go `DefaultSocketPath`. -/
def DefaultSocketPath : String := "/tmp/tailscale/tailscaled.sock"

/-- Go `time.Minute`, a `time.Duration` in nanoseconds. -/
def Minute : Nat := 60 * 1000000000

/-- What `start` and `watchIPNBus` do besides changing the plugin state, in the
order they do it: the `clog` calls, `time.Sleep`, `watcher.Close` and the `go`
statement. -/
inductive Action where
  | logInfo (msg : String)
  | logWarning (msg : String)
  | sleep (d : Nat)
  | closeWatcher
  | goWatchIPNBus
  deriving DecidableEq, Repr

/-- The error of `os.Stat`, as far as `start` tells errors apart. -/
inductive StatError where
  | notExist
  | other
  deriving DecidableEq, Repr

/-- Go `os.IsNotExist(err)`. -/
def IsNotExist (err : Option StatError) : Bool := decide (err = some StatError.notExist)

/-- What a call of `start` leaves: the plugin state, the actions taken and
the returned `error` (`none` for `nil`). -/
structure StartResult where
  t : Tailscale
  actions : List Action
  err : Option String

/-- Go `(*Tailscale).start`; `stat` answers `os.Stat` for a path. -/
def start (t : Tailscale) (stat : String → Option StatError) : StartResult :=
  -- lines 54-56
  let t := if t.socketPath = "" then { t with socketPath := DefaultSocketPath } else t
  -- lines 59-61
  let actions :=
    if IsNotExist (stat t.socketPath) then
      [Action.logWarning ("Tailscale socket not found at " ++ t.socketPath ++ ", will retry")]
    else []
  -- lines 64-66
  let t := { t with lc := some { Socket := t.socketPath } }
  -- line 68
  let actions := actions ++ [Action.goWatchIPNBus]
  -- line 70
  let actions :=
    actions ++ [Action.logInfo ("Tailscale plugin connected to socket: " ++ t.socketPath)]
  -- line 72
  { t := t, actions := actions, err := none }

/-- The two places where `watchIPNBus` waits for the daemon: in
`lc.WatchIPNBus` (no subscription is open) and in `watcher.Next` (one is). -/
inductive Conn where
  | Disconnected
  | Subscribed
  deriving DecidableEq, Repr

/-- What the daemon answers: `WatchIPNBus` fails or returns a watcher, `Next`
returns a notification with its `NetMap` field or fails. -/
inductive Event where
  | openFails
  | openSucceeds
  | notification (nm : Option NetworkMap)
  | readError
  deriving DecidableEq, Repr

/-- The state of the loop at a waiting point. -/
structure LoopState where
  conn : Conn
  t : Tailscale

/-- The events a waiting point can receive. -/
def receivable : Conn → Event → Bool
  | Conn.Disconnected, Event.openFails => true
  | Conn.Disconnected, Event.openSucceeds => true
  | Conn.Subscribed, Event.notification _ => true
  | Conn.Subscribed, Event.readError => true
  | _, _ => false

/-- A notification as the daemon sends it: without a network map, or with one
whose self node and peers are valid views. -/
def wellFormed : Event → Bool
  | Event.notification (some nm) => nm.SelfNode.Valid && nm.Peers.all NodeView.Valid
  | _ => true

/-- The code of `watchIPNBus` from one waiting point to the next (lines 78-96):
`none` when the event cannot arrive there, a panic when `processNetMap` panics. -/
def step (s : LoopState) (ev : Event) : Option (Except Panic (LoopState × List Action)) :=
  match s.conn, ev with
  | Conn.Disconnected, Event.openFails =>
    -- lines 80-84
    some (pure (s,
      [Action.logInfo "unable to read from Tailscale event bus, retrying in 1 minute",
       Action.sleep (1 * Minute)]))
  | Conn.Disconnected, Event.openSucceeds =>
    -- lines 85-87
    some (pure ({ s with conn := Conn.Subscribed }, []))
  | Conn.Subscribed, Event.readError =>
    -- lines 89-93, then the outer loop starts over
    some (pure ({ s with conn := Conn.Disconnected }, [Action.closeWatcher]))
  | Conn.Subscribed, Event.notification nm =>
    -- line 94
    some (processNetMap s.t nm >>= fun t => pure ({ s with t := t }, []))
  | _, _ => none

/-- The loop driven through a finite list of answers of the daemon. -/
def run : LoopState → List Event → Option (Except Panic (LoopState × List Action))
  | s, [] => some (pure (s, []))
  | s, ev :: rest =>
    match step s ev with
    | none => none
    | some (Except.error p) => some (Except.error p)
    | some (Except.ok (s', acts)) =>
      match run s' rest with
      | some (Except.ok (s'', acts')) => some (Except.ok (s'', acts ++ acts'))
      | other => other

/-- Go `(*Tailscale).watchIPNBus`, driven through a finite list of answers of
the daemon: it starts by calling `lc.WatchIPNBus`. -/
def watchIPNBus (t : Tailscale) (events : List Event) :
    Option (Except Panic (LoopState × List Action)) :=
  run { conn := Conn.Disconnected, t := t } events

/-- The waiting point an event leads to. -/
def nextConn : Conn → Event → Conn
  | Conn.Disconnected, Event.openSucceeds => Conn.Subscribed
  | Conn.Subscribed, Event.readError => Conn.Disconnected
  | c, _ => c

/-- A list of answers the daemon can give from a waiting point on: each event
is receivable where it arrives and well formed. -/
def scripted : Conn → List Event → Bool
  | _, [] => true
  | c, ev :: rest => receivable c ev && wellFormed ev && scripted (nextConn c ev) rest

/-- A Go map literal with string keys: the value listed under a key, if any. -/
def mapOf {α : Type} (l : List (String × α)) : String → Option α := fun k => l.lookup k

/-- The table `want` that `TestProcessNetMap` expects after its first call. -/
def want : Entries :=
  mapOf
    [("self", mapOf [("A", ["100.64.0.1"]), ("AAAA", ["fd7a:115c:a1e0::1"])]),
     ("peer", mapOf [("A", ["100.64.0.2"]), ("AAAA", ["fd7a:115c:a1e0::2"])]),
     ("app", mapOf [("CNAME", ["self.example.com.", "peer.example.com."])])]

/-- Whether the address of a prefix is IPv4 or IPv6: the two cases the address loop files. -/
def isIP (p : Prefix) : Bool := p.Addr.Is4 || p.Addr.Is6

/-- The node without its addresses that are neither IPv4 nor IPv6. -/
def dropNonIP (n : Node) : Node := { n with Addresses := n.Addresses.filter isIP }

/-- A prefix whose address is the zero `netip.Addr`, neither IPv4 nor IPv6. -/
def zeroPrefix : Prefix := ⟨⟨0, 0, AddrZ.z0⟩, 0⟩

/-- The self node of `TestProcessNetMap` with a zero address put before and
between its two addresses. -/
def selfWithZero : Node :=
  { self with Addresses := [zeroPrefix, prefix4 100 64 0 1, zeroPrefix, prefix6 0xfd7a115ca1e00000 1] }

/-! ## The code computes the total counterparts -/

@[simp] theorem bind_ok {α β : Type} (a : α) (f : α → Except Panic β) :
    (Except.ok a >>= f) = f a := rfl

@[simp] theorem bind_error {α β : Type} (p : Panic) (f : α → Except Panic β) :
    (Except.error p >>= f) = Except.error p := rfl

@[simp] theorem pure_eq_ok {α : Type} (a : α) : (pure a : Except Panic α) = Except.ok a := rfl

theorem hasKey_iff (e : Entries) (k : String) : hasKey e k = true ↔ ∃ r, e k = some r := by
  unfold hasKey
  cases e k <;> simp

theorem appendValue_eq (e : Entries) (name kind value : String) (h : hasKey e name = true) :
    appendValue e name kind value = Except.ok (push e name kind value) := by
  obtain ⟨r, hr⟩ := (hasKey_iff e name).1 h
  simp [appendValue, push, values, hr]

@[simp] theorem hasKey_push (e : Entries) (name kind value k : String) :
    hasKey (push e name kind value) k = (hasKey e k || decide (k = name)) := by
  unfold hasKey push
  by_cases hk : k = name
  · subst hk; simp
  · simp [Function.update_noteq hk, hk]

@[simp] theorem hasKey_ensure (e : Entries) (name k : String) :
    hasKey (ensure e name) k = (hasKey e k || decide (k = name)) := by
  unfold ensure
  split_ifs with hn
  · by_cases hk : k = name
    · subst hk; simp [hn]
    · simp [hk]
  · by_cases hk : k = name
    · subst hk; simp [hasKey]
    · simp [hk, hasKey, Function.update_noteq hk]

theorem addAddresses_eq (e : Entries) (name : String) (addresses : List Prefix)
    (h : hasKey e name = true) :
    addAddresses e name addresses = Except.ok (pushAddresses e name addresses) := by
  induction addresses generalizing e with
  | nil => simp [addAddresses, pushAddresses]
  | cons p ps ih =>
    simp only [addAddresses, pushAddresses, List.foldlM_cons, List.foldl_cons] at ih ⊢
    by_cases h4 : p.Addr.Is4 = true
    · simp only [h4, if_true, appendValue_eq e name _ _ h, bind_ok]
      exact ih _ (by simp [h])
    · by_cases h6 : p.Addr.Is6 = true
      · simp only [h4, h6, if_true, if_false, appendValue_eq e name _ _ h, bind_ok]
        exact ih _ (by simp [h])
      · simp only [h4, h6, if_false, pure_eq_ok, bind_ok]
        exact ih _ h

theorem addTags_eq (zone hostname : String) (e : Entries) (tags : List String) :
    addTags zone hostname e tags = Except.ok (pushTags zone hostname e tags) := by
  induction tags generalizing e with
  | nil => simp [addTags, pushTags]
  | cons raw rest ih =>
    simp only [addTags, pushTags, List.foldlM_cons, List.foldl_cons] at ih ⊢
    rcases hc : cutPrefix raw "tag:cname-" with ⟨tag, b⟩
    cases b
    · simp only [pure_eq_ok, bind_ok]
      exact ih _
    · simp only [appendValue_eq (ensure e tag) tag _ _ (by simp), bind_ok]
      exact ih _

theorem tagsGuard_eq (zone hostname : String) (e : Entries) (tags : List String) :
    (if tags.length > 0 then addTags zone hostname e tags else Except.ok e) =
      Except.ok (pushTags zone hostname e tags) := by
  cases tags with
  | nil => simp [pushTags]
  | cons raw rest => simp [addTags_eq]

theorem processNode_view (zone : String) (e : Entries) (n : Node) :
    processNode zone e n.View =
      Except.ok (if eligible n = true then nodeEntries zone e n else e) := by
  unfold processNode
  simp only [NodeView.IsWireGuardOnly, NodeView.Sharer, NodeView.ComputedName,
    NodeView.Addresses, NodeView.Tags, NodeView.deref, Node.View, pure_eq_ok, bind_ok]
  by_cases hw : n.IsWireGuardOnly = true
  · simp [hw, eligible]
  · by_cases hs : UserID.IsZero n.Sharer = true
    · have he : eligible n = true := by simp [eligible, hw, hs]
      have h1 : hasKey (ensure e n.ComputedName) n.ComputedName = true := by simp
      simp only [hw, hs, he, if_true, if_false, Bool.not_true, Bool.false_eq_true,
        addAddresses_eq _ _ _ h1, bind_ok]
      by_cases hb : hostnameWithoutSuffix n.ComputedName = n.ComputedName
      · simp only [hb, ne_eq, not_true_eq_false, if_false, tagsGuard_eq, nodeEntries]
      · have h2 : ∀ e' : Entries, hasKey (ensure e' (hostnameWithoutSuffix n.ComputedName))
            (hostnameWithoutSuffix n.ComputedName) = true := by simp
        simp only [hb, ne_eq, not_false_eq_true, if_true, addAddresses_eq _ _ _ (h2 _), bind_ok,
          tagsGuard_eq, nodeEntries]
    · simp [hw, hs, eligible]

theorem foldlM_views (zone : String) (nodes : List Node) (e : Entries) :
    (nodes.map Node.View).foldlM (processNode zone) e =
      Except.ok ((nodes.filter eligible).foldl (nodeEntries zone) e) := by
  induction nodes generalizing e with
  | nil => rfl
  | cons n ns ih =>
    simp only [List.map_cons, List.foldlM_cons, processNode_view, bind_ok, ih]
    by_cases he : eligible n = true
    · simp [he]
    · simp [he]

theorem snapshot_of_valid (nm : NetworkMap) (hself : nm.SelfNode.Valid = true)
    (hpeers : ∀ v ∈ nm.Peers, NodeView.Valid v = true) :
    ∃ self peers, nm = snapshot self peers := by
  obtain ⟨⟨selfPtr⟩, peerViews⟩ := nm
  cases selfPtr with
  | none => simp [NodeView.Valid] at hself
  | some self =>
    refine ⟨self, peerViews.filterMap NodeView.ptr, ?_⟩
    simp only [snapshot, Node.View, NetworkMap.mk.injEq, true_and]
    clear hself
    induction peerViews with
    | nil => rfl
    | cons v vs ih =>
      have hv := hpeers v (List.mem_cons_self _ _)
      have hvs := ih (fun w hw => hpeers w (List.mem_cons_of_mem _ hw))
      obtain ⟨vp⟩ := v
      cases vp with
      | none => simp [NodeView.Valid] at hv
      | some n =>
        simp only [List.filterMap_cons, List.map_cons]
        rw [← hvs]
        rfl

theorem processNetMap_snapshot (t : Tailscale) (self : Node) (peers : List Node) :
    processNetMap t (some (snapshot self peers)) =
      Except.ok { t with entries := buildEntries t.zone (self :: peers) } := by
  have h := foldlM_views t.zone (self :: peers) emptyEntries
  simp only [List.map_cons] at h
  simp only [processNetMap, snapshot, NodeView.Tags, NodeView.deref, Node.View, pure_eq_ok,
    bind_ok, List.singleton_append, buildEntries]
  simp only [Node.View] at h
  rw [h]
  rfl

theorem Is6_of_Is4 (a : Addr) (h : a.Is4 = true) : a.Is6 = false := by
  simp [Addr.Is4, Addr.Is6] at h ⊢
  simp [h]

@[simp] theorem values_push (e : Entries) (name kind value k kd : String) :
    values (push e name kind value) k kd =
      values e k kd ++ (if k = name ∧ kd = kind then [value] else []) := by
  by_cases hk : k = name
  · subst hk
    by_cases hd : kd = kind
    · subst hd; simp [values, push]
    · simp only [values, push, Function.update_same, Function.update_noteq hd, hd, and_false,
        if_false, List.append_nil]
      cases e k <;> simp [emptyRecords]
  · simp [values, push, Function.update_noteq hk, hk]

@[simp] theorem values_ensure (e : Entries) (name k kd : String) :
    values (ensure e name) k kd = values e k kd := by
  unfold ensure
  split_ifs with hn
  · rfl
  · by_cases hk : k = name
    · subst hk
      have : e k = none := by
        simpa [hasKey] using hn
      simp [values, this, emptyRecords]
    · simp [values, Function.update_noteq hk]

theorem values_pushAddresses (e : Entries) (name : String) (addresses : List Prefix)
    (k kd : String) :
    values (pushAddresses e name addresses) k kd =
      values e k kd ++ (if k = name then addressValues kd addresses else []) := by
  induction addresses generalizing e with
  | nil => simp [pushAddresses, addressValues, ipv4Strings, ipv6Strings]
  | cons p ps ih =>
    simp only [pushAddresses, List.foldl_cons] at ih ⊢
    rw [ih]
    by_cases hk : k = name
    · by_cases h4 : p.Addr.Is4 = true
      · have h6 := Is6_of_Is4 _ h4
        by_cases hA : kd = "A"
        · subst hA; simp [hk, h4, addressValues, ipv4Strings]
        · by_cases hAAAA : kd = "AAAA"
          · subst hAAAA; simp [hk, h4, h6, addressValues, ipv6Strings]
          · simp [hk, h4, hA, hAAAA, addressValues]
      · by_cases h6 : p.Addr.Is6 = true
        · by_cases hA : kd = "A"
          · subst hA; simp [hk, h4, h6, addressValues, ipv4Strings]
          · by_cases hAAAA : kd = "AAAA"
            · subst hAAAA; simp [hk, h4, h6, addressValues, ipv6Strings]
            · simp [hk, h4, h6, hA, hAAAA, addressValues]
        · by_cases hA : kd = "A"
          · subst hA; simp [hk, h4, h6, addressValues, ipv4Strings]
          · by_cases hAAAA : kd = "AAAA"
            · subst hAAAA; simp [hk, h4, h6, addressValues, ipv6Strings]
            · simp [hk, h4, h6, hA, hAAAA, addressValues]
    · split_ifs <;> simp [hk]

theorem hasKey_pushAddresses (e : Entries) (name : String) (addresses : List Prefix)
    (k : String) (h : hasKey e name = true) :
    hasKey (pushAddresses e name addresses) k = hasKey e k := by
  induction addresses generalizing e with
  | nil => rfl
  | cons p ps ih =>
    simp only [pushAddresses, List.foldl_cons] at ih ⊢
    have hk : (hasKey e k || decide (k = name)) = hasKey e k := by
      by_cases hkn : k = name
      · subst hkn; simp [h]
      · simp [hkn]
    split_ifs
    · rw [ih _ (by simp [h]), hasKey_push, hk]
    · rw [ih _ (by simp [h]), hasKey_push, hk]
    · exact ih _ h

theorem hasPrefix_iff (s pre : List Char) :
    hasPrefix s pre = true ↔ s = pre ++ s.drop pre.length := by
  induction pre generalizing s with
  | nil => simp [hasPrefix]
  | cons p pre ih =>
    cases s with
    | nil => simp [hasPrefix]
    | cons c s =>
      simp only [hasPrefix, Bool.and_eq_true, beq_iff_eq, ih, List.length_cons, List.drop_succ_cons,
        List.cons_append, List.cons.injEq]

theorem cutPrefix_true_iff (raw pre a : String) :
    cutPrefix raw pre = (a, true) ↔ raw = pre ++ a := by
  unfold cutPrefix
  constructor
  · intro h
    split_ifs at h with hp
    · simp only [Prod.mk.injEq, and_true] at h
      subst h
      apply String.ext
      rw [String.data_append]
      exact (hasPrefix_iff _ _).1 hp
    · simp at h
  · intro h
    subst h
    have hp : hasPrefix (pre ++ a).data pre.data = true := by
      rw [hasPrefix_iff, String.data_append]
      simp
    rw [if_pos hp]
    simp only [Prod.mk.injEq, and_true]
    apply String.ext
    simp [String.data_append]

theorem cutPrefix_false (raw pre tag : String) (h : cutPrefix raw pre = (tag, false)) (a : String) :
    raw ≠ pre ++ a := by
  intro h2
  rw [(cutPrefix_true_iff raw pre a).2 h2] at h
  simp at h

theorem values_pushTags (zone hostname : String) (e : Entries) (tags : List String)
    (k kd : String) :
    values (pushTags zone hostname e tags) k kd =
      values e k kd ++
        (if kd = "CNAME" then
          (tags.filter (fun raw => decide (raw = "tag:cname-" ++ k))).map
            (fun _ => hostname ++ "." ++ zone ++ ".")
        else []) := by
  induction tags generalizing e with
  | nil => simp [pushTags]
  | cons raw rest ih =>
    simp only [pushTags, List.foldl_cons] at ih ⊢
    rw [ih]
    rcases hc : cutPrefix raw "tag:cname-" with ⟨tag, b⟩
    cases b
    · have hne := cutPrefix_false _ _ _ hc k
      simp [hne]
    · have hraw := (cutPrefix_true_iff _ _ _).1 hc
      by_cases hk : k = tag
      · subst hk
        by_cases hd : kd = "CNAME"
        · simp [hd, hraw]
        · simp [hd]
      · have hne : raw ≠ "tag:cname-" ++ k := by
          intro h2
          rw [hraw] at h2
          have := congrArg String.data h2
          simp only [String.data_append, List.append_cancel_left_eq] at this
          exact hk (String.ext this).symm
        simp [hk, hne]

theorem hasKey_pushTags (zone hostname : String) (e : Entries) (tags : List String)
    (k : String) :
    hasKey (pushTags zone hostname e tags) k =
      (hasKey e k || tags.any (fun raw => decide (raw = "tag:cname-" ++ k))) := by
  induction tags generalizing e with
  | nil => simp [pushTags]
  | cons raw rest ih =>
    simp only [pushTags, List.foldl_cons] at ih ⊢
    rw [ih]
    rcases hc : cutPrefix raw "tag:cname-" with ⟨tag, b⟩
    cases b
    · have hne := cutPrefix_false _ _ _ hc k
      simp [hne]
    · have hraw := (cutPrefix_true_iff _ _ _).1 hc
      by_cases hk : k = tag
      · subst hk
        simp [hraw]
      · have hne : raw ≠ "tag:cname-" ++ k := by
          intro h2
          rw [hraw] at h2
          have := congrArg String.data h2
          simp only [String.data_append, List.append_cancel_left_eq] at this
          exact hk (String.ext this).symm
        simp [hk, hne]

theorem values_nodeEntries (zone : String) (e : Entries) (n : Node) (k kd : String) :
    values (nodeEntries zone e n) k kd = values e k kd ++ contribution zone n k kd := by
  unfold nodeEntries contribution aliasTargets namedBy
  simp only [values_pushTags]
  by_cases hb : hostnameWithoutSuffix n.ComputedName = n.ComputedName
  · simp only [hb, ne_eq, not_true_eq_false, if_false, values_pushAddresses, values_ensure,
      decide_False, Bool.and_false, Bool.or_false, decide_eq_true_eq, List.append_assoc]
    by_cases hk : k = n.ComputedName
    · simp [hk]
    · simp [hk, Ne.symm hk, eq_comm]
  · simp only [hb, ne_eq, not_false_eq_true, if_true, values_pushAddresses, values_ensure,
      decide_True, Bool.and_true, Bool.or_eq_true, decide_eq_true_eq, List.append_assoc]
    by_cases hk : k = n.ComputedName
    · have : ¬ k = hostnameWithoutSuffix n.ComputedName := by
        rw [hk]; exact fun h => hb h.symm
      simp [hk, this]
      intro h; exact absurd h.symm hb
    · by_cases hk2 : k = hostnameWithoutSuffix n.ComputedName
      · simp [hk, hk2, Ne.symm hk, hb]
      · simp [hk, hk2, Ne.symm hk, Ne.symm hk2]

theorem hasKey_nodeEntries (zone : String) (e : Entries) (n : Node) (k : String) :
    hasKey (nodeEntries zone e n) k =
      (hasKey e k || decide (k = n.ComputedName) ||
        decide (k = hostnameWithoutSuffix n.ComputedName) ||
        n.Tags.any (fun raw => decide (raw = "tag:cname-" ++ k))) := by
  unfold nodeEntries
  simp only [hasKey_pushTags]
  by_cases hb : hostnameWithoutSuffix n.ComputedName = n.ComputedName
  · simp only [hb, ne_eq, not_true_eq_false, if_false]
    rw [hasKey_pushAddresses _ _ _ _ (by simp), hasKey_ensure]
    simp [Bool.or_assoc]
  · simp only [hb, ne_eq, not_false_eq_true, if_true]
    rw [hasKey_pushAddresses _ _ _ _ (by simp), hasKey_ensure,
      hasKey_pushAddresses _ _ _ _ (by simp), hasKey_ensure]

theorem values_foldl (zone : String) (nodes : List Node) (e : Entries) (k kd : String) :
    values (nodes.foldl (nodeEntries zone) e) k kd =
      values e k kd ++ nodes.flatMap (fun n => contribution zone n k kd) := by
  induction nodes generalizing e with
  | nil => simp
  | cons n ns ih => simp [ih, values_nodeEntries]

theorem hasKey_foldl (zone : String) (nodes : List Node) (e : Entries) (k : String) :
    hasKey (nodes.foldl (nodeEntries zone) e) k =
      (hasKey e k || nodes.any (fun n => decide (k = n.ComputedName) ||
        decide (k = hostnameWithoutSuffix n.ComputedName) ||
        n.Tags.any (fun raw => decide (raw = "tag:cname-" ++ k)))) := by
  induction nodes generalizing e with
  | nil => simp
  | cons n ns ih => simp [ih, hasKey_nodeEntries, Bool.or_assoc]

theorem flatMap_ite_eq {α β : Type} (p : α → Bool) (f : α → List β) (l : List α) :
    l.flatMap (fun n => if p n = true then f n else []) = (l.filter p).flatMap f := by
  induction l with
  | nil => rfl
  | cons a l ih =>
    by_cases h : p a = true
    · simp [List.flatMap_cons, List.filter_cons, h, ih]
    · simp [List.flatMap_cons, List.filter_cons, h, ih]

theorem values_emptyEntries (k kd : String) : values emptyEntries k kd = [] := rfl

theorem values_buildEntries (zone : String) (nodes : List Node) (k kd : String) :
    values (buildEntries zone nodes) k kd =
      (nodes.filter eligible).flatMap (fun n => contribution zone n k kd) := by
  simp [buildEntries, values_foldl, values_emptyEntries]

theorem values_buildEntries_A (zone : String) (nodes : List Node) (k : String) :
    values (buildEntries zone nodes) k "A" =
      ((nodes.filter eligible).filter (namedBy k)).flatMap (fun n => ipv4Strings n.Addresses) := by
  simp only [values_buildEntries, ← flatMap_ite_eq (namedBy k)]
  congr 1
  funext n
  simp [contribution, addressValues]

theorem values_buildEntries_AAAA (zone : String) (nodes : List Node) (k : String) :
    values (buildEntries zone nodes) k "AAAA" =
      ((nodes.filter eligible).filter (namedBy k)).flatMap (fun n => ipv6Strings n.Addresses) := by
  simp only [values_buildEntries, ← flatMap_ite_eq (namedBy k)]
  congr 1
  funext n
  simp [contribution, addressValues]

theorem hasKey_buildEntries (zone : String) (nodes : List Node) (k : String) :
    hasKey (buildEntries zone nodes) k = true ↔
      ∃ n ∈ nodes, eligible n = true ∧
        (n.ComputedName = k ∨ hostnameWithoutSuffix n.ComputedName = k ∨
          ∃ raw ∈ n.Tags, raw = "tag:cname-" ++ k) := by
  simp only [buildEntries, hasKey_foldl]
  have h0 : hasKey emptyEntries k = false := rfl
  simp only [h0, Bool.false_or, List.any_eq_true, List.mem_filter, Bool.or_eq_true,
    decide_eq_true_eq]
  constructor
  · rintro ⟨n, ⟨hn, he⟩, h⟩
    refine ⟨n, hn, he, ?_⟩
    rcases h with (h | h) | ⟨raw, hr, h⟩
    · exact Or.inl h.symm
    · exact Or.inr (Or.inl h.symm)
    · exact Or.inr (Or.inr ⟨raw, hr, h⟩)
  · rintro ⟨n, hn, he, h⟩
    refine ⟨n, ⟨hn, he⟩, ?_⟩
    rcases h with h | h | ⟨raw, hr, h⟩
    · exact Or.inl (Or.inl h.symm)
    · exact Or.inl (Or.inr h.symm)
    · exact Or.inr ⟨raw, hr, h⟩

theorem recordsOK_empty : RecordsOK emptyEntries := by
  intro k recs kd vs h
  simp [emptyEntries] at h

theorem recordsOK_ensure (e : Entries) (name : String) (h : RecordsOK e) :
    RecordsOK (ensure e name) := by
  unfold ensure
  split_ifs with hn
  · exact h
  · intro k recs kd vs hk hr
    by_cases hkn : k = name
    · subst hkn
      simp only [Function.update_same, Option.some.injEq] at hk
      subst hk
      simp [emptyRecords] at hr
    · rw [Function.update_noteq hkn] at hk
      exact h k recs kd vs hk hr

theorem recordsOK_push (e : Entries) (name kind value : String) (h : RecordsOK e)
    (hkind : kind = "A" ∨ kind = "AAAA" ∨ kind = "CNAME") :
    RecordsOK (push e name kind value) := by
  intro k recs kd vs hk hr
  unfold push at hk
  by_cases hkn : k = name
  · subst hkn
    simp only [Function.update_same, Option.some.injEq] at hk
    subst hk
    by_cases hd : kd = kind
    · subst hd
      simp only [Function.update_same, Option.some.injEq] at hr
      subst hr
      exact ⟨hkind, by simp⟩
    · rw [Function.update_noteq hd] at hr
      cases hek : e k with
      | none => simp [hek, emptyRecords] at hr
      | some r =>
        simp only [hek, Option.getD_some] at hr
        exact h k r kd vs hek hr
  · rw [Function.update_noteq hkn] at hk
    exact h k recs kd vs hk hr

theorem recordsOK_pushAddresses (e : Entries) (name : String) (addresses : List Prefix)
    (h : RecordsOK e) : RecordsOK (pushAddresses e name addresses) := by
  induction addresses generalizing e with
  | nil => exact h
  | cons p ps ih =>
    simp only [pushAddresses, List.foldl_cons] at ih ⊢
    apply ih
    split_ifs
    · exact recordsOK_push _ _ _ _ h (Or.inl rfl)
    · exact recordsOK_push _ _ _ _ h (Or.inr (Or.inl rfl))
    · exact h

theorem recordsOK_pushTags (zone hostname : String) (e : Entries) (tags : List String)
    (h : RecordsOK e) : RecordsOK (pushTags zone hostname e tags) := by
  induction tags generalizing e with
  | nil => exact h
  | cons raw rest ih =>
    simp only [pushTags, List.foldl_cons] at ih ⊢
    apply ih
    rcases cutPrefix raw "tag:cname-" with ⟨tag, b⟩
    cases b
    · exact h
    · exact recordsOK_push _ _ _ _ (recordsOK_ensure _ _ h) (Or.inr (Or.inr rfl))

theorem recordsOK_nodeEntries (zone : String) (e : Entries) (n : Node) (h : RecordsOK e) :
    RecordsOK (nodeEntries zone e n) := by
  unfold nodeEntries
  apply recordsOK_pushTags
  have h1 := recordsOK_pushAddresses _ n.ComputedName n.Addresses
    (recordsOK_ensure e n.ComputedName h)
  split_ifs
  · exact recordsOK_pushAddresses _ _ _ (recordsOK_ensure _ _ h1)
  · exact h1

theorem recordsOK_foldl (zone : String) (nodes : List Node) (e : Entries) (h : RecordsOK e) :
    RecordsOK (nodes.foldl (nodeEntries zone) e) := by
  induction nodes generalizing e with
  | nil => exact h
  | cons n ns ih => exact ih _ (recordsOK_nodeEntries zone e n h)

theorem recordsOK_buildEntries (zone : String) (nodes : List Node) :
    RecordsOK (buildEntries zone nodes) :=
  recordsOK_foldl zone _ _ recordsOK_empty

theorem values_of_some (e : Entries) (k kd : String) (recs : Records) (vs : List String)
    (hk : e k = some recs) (hr : recs kd = some vs) : values e k kd = vs := by
  simp [values, hk, hr]

theorem mem_ipv4Strings (v : String) (addresses : List Prefix) (h : v ∈ ipv4Strings addresses) :
    ∃ a : Addr, a.Is4 = true ∧ v = a.String := by
  simp only [ipv4Strings, List.mem_map, List.mem_filter] at h
  obtain ⟨p, ⟨_, h4⟩, hv⟩ := h
  exact ⟨p.Addr, h4, hv.symm⟩

theorem mem_ipv6Strings (v : String) (addresses : List Prefix) (h : v ∈ ipv6Strings addresses) :
    ∃ a : Addr, a.Is6 = true ∧ v = a.String := by
  simp only [ipv6Strings, List.mem_map, List.mem_filter] at h
  obtain ⟨p, ⟨_, h6⟩, hv⟩ := h
  exact ⟨p.Addr, h6, hv.symm⟩

theorem isDigit_ne_hyphen (c : Char) (h : isDigit c = true) : c ≠ '-' := by
  intro hc
  subst hc
  revert h
  decide

theorem isDigit_ne_newline (c : Char) (h : isDigit c = true) : c ≠ '\n' := by
  intro hc
  subst hc
  revert h
  decide

theorem matchHere_digits (ds : List Char) (h : ∀ c ∈ ds, isDigit c = true) :
    matchHere ds = none := by
  induction ds with
  | nil => rfl
  | cons c rest ih =>
    have hc := h c (List.mem_cons_self _ _)
    have hrest := ih (fun x hx => h x (List.mem_cons_of_mem _ hx))
    simp [matchHere, isDigit_ne_newline c hc, isDigit_ne_hyphen c hc, hrest]

theorem takeWhile_all (ds : List Char) (h : ∀ c ∈ ds, isDigit c = true) :
    ds.takeWhile isDigit = ds := by
  induction ds with
  | nil => rfl
  | cons c rest ih =>
    simp [List.takeWhile_cons, h c (List.mem_cons_self _ _),
      ih (fun x hx => h x (List.mem_cons_of_mem _ hx))]

theorem matchHere_suffixed (p : List Char) (d : Char) (ds : List Char) (hp : '\n' ∉ p)
    (h : ∀ c ∈ d :: ds, isDigit c = true) :
    matchHere (p ++ '-' :: d :: ds) = some (p, '-' :: d :: ds) := by
  induction p with
  | nil =>
    have h1 := matchHere_digits (d :: ds) h
    have h2 := takeWhile_all (d :: ds) h
    have h3 : ('-' : Char) ≠ '\n' := by decide
    rw [List.nil_append, matchHere]
    simp only [h3, if_false, h1, if_true, h2]
  | cons c p ih =>
    have hc : c ≠ '\n' := fun hc => hp (by simp [hc])
    have hp2 : '\n' ∉ p := fun hx => hp (List.mem_cons_of_mem _ hx)
    rw [List.cons_append, matchHere]
    simp only [hc, if_false, ih hp2]

theorem findMatch_suffixed (p : List Char) (d : Char) (ds : List Char) (hp : '\n' ∉ p)
    (h : ∀ c ∈ d :: ds, isDigit c = true) :
    findMatch (p ++ '-' :: d :: ds) = some (p, '-' :: d :: ds) := by
  have hm := matchHere_suffixed p d ds hp h
  cases p with
  | nil =>
    simp only [List.nil_append] at hm ⊢
    simp only [findMatch, hm]
  | cons c p =>
    simp only [List.cons_append] at hm ⊢
    simp only [findMatch, hm]

theorem hostnameWithoutSuffix_suffixed (p : String) (ds : List Char) (hp : '\n' ∉ p.data)
    (hne : ds ≠ []) (h : ∀ c ∈ ds, isDigit c = true) :
    hostnameWithoutSuffix (p ++ "-" ++ String.mk ds) = p := by
  cases ds with
  | nil => exact absurd rfl hne
  | cons d ds =>
    have hd : (p ++ "-" ++ String.mk (d :: ds)).data = p.data ++ '-' :: d :: ds := by
      simp [String.data_append]
    simp only [hostnameWithoutSuffix, FindStringSubmatch, hd, findMatch_suffixed p.data d ds hp h]
    simp

theorem suffixed_ne (p : String) (ds : List Char) : p ++ "-" ++ String.mk ds ≠ p := by
  intro h
  have := congrArg (fun s => s.data.length) h
  simp [String.data_append] at this

theorem pushAddresses_filter (e : Entries) (name : String) (addresses : List Prefix) :
    pushAddresses e name (addresses.filter isIP) = pushAddresses e name addresses := by
  induction addresses generalizing e with
  | nil => rfl
  | cons p ps ih =>
    by_cases h4 : p.Addr.Is4 = true
    · have hp : isIP p = true := by simp [isIP, h4]
      rw [List.filter_cons_of_pos hp]
      simp only [pushAddresses, List.foldl_cons, h4, if_true] at ih ⊢
      exact ih _
    · by_cases h6 : p.Addr.Is6 = true
      · have hp : isIP p = true := by simp [isIP, h6]
        rw [List.filter_cons_of_pos hp]
        simp only [pushAddresses, List.foldl_cons, h4, h6, if_true, if_false] at ih ⊢
        exact ih _
      · have hp : ¬ isIP p = true := by simp [isIP, h4, h6]
        rw [List.filter_cons_of_neg hp]
        simp only [pushAddresses, List.foldl_cons, h4, h6, if_false] at ih ⊢
        exact ih _

theorem nodeEntries_dropNonIP (zone : String) (e : Entries) (n : Node) :
    nodeEntries zone e (dropNonIP n) = nodeEntries zone e n := by
  simp only [nodeEntries, dropNonIP, pushAddresses_filter]

theorem eligible_dropNonIP (n : Node) : eligible (dropNonIP n) = eligible n := rfl

theorem foldl_dropNonIP (zone : String) (nodes : List Node) (e : Entries) :
    ((nodes.map dropNonIP).filter eligible).foldl (nodeEntries zone) e =
      (nodes.filter eligible).foldl (nodeEntries zone) e := by
  induction nodes generalizing e with
  | nil => rfl
  | cons n ns ih =>
    by_cases he : eligible n = true
    · have he2 : eligible (dropNonIP n) = true := by rw [eligible_dropNonIP]; exact he
      simp only [List.map_cons, List.filter_cons_of_pos he, List.filter_cons_of_pos he2,
        List.foldl_cons, nodeEntries_dropNonIP, ih]
    · have he2 : ¬ eligible (dropNonIP n) = true := by rw [eligible_dropNonIP]; exact he
      simp only [List.map_cons, List.filter_cons_of_neg he, List.filter_cons_of_neg he2, ih]

theorem buildEntries_dropNonIP (zone : String) (nodes : List Node) :
    buildEntries zone (nodes.map dropNonIP) = buildEntries zone nodes :=
  foldl_dropNonIP zone nodes emptyEntries

theorem length_flatMap_le {α β : Type} (f : α → List β) (l : List α)
    (h : ∀ a ∈ l, (f a).length ≤ 1) : (l.flatMap f).length ≤ l.length := by
  induction l with
  | nil => simp
  | cons a l ih =>
    have h1 := h a (List.mem_cons_self _ _)
    have h2 := ih (fun b hb => h b (List.mem_cons_of_mem _ hb))
    simp only [List.flatMap_cons, List.length_append, List.length_cons]
    omega

theorem flatMap_eq_nil_of {α β : Type} (f : α → List β) (l : List α)
    (h : ∀ a ∈ l, f a = []) : l.flatMap f = [] := by
  induction l with
  | nil => rfl
  | cons a l ih =>
    simp [List.flatMap_cons, h a (List.mem_cons_self _ _),
      ih (fun b hb => h b (List.mem_cons_of_mem _ hb))]

theorem values_buildEntries_CNAME (zone : String) (nodes : List Node) (k : String) :
    values (buildEntries zone nodes) k "CNAME" =
      (nodes.filter eligible).flatMap (fun n => aliasTargets zone n k) := by
  simp only [values_buildEntries]
  congr 1
  funext n
  simp [contribution, addressValues]

theorem values_addAddresses_CNAME (e e' : Entries) (name : String) (addresses : List Prefix)
    (h : addAddresses e name addresses = Except.ok e') (k : String) :
    values e' k "CNAME" = values e k "CNAME" := by
  induction addresses generalizing e with
  | nil =>
    simp only [addAddresses, List.foldlM_nil, pure_eq_ok, Except.ok.injEq] at h
    rw [← h]
  | cons p ps ih =>
    simp only [addAddresses, List.foldlM_cons] at h ih
    cases hstep : (if p.Addr.Is4 = true then appendValue e name "A" p.Addr.String
        else if p.Addr.Is6 = true then appendValue e name "AAAA" p.Addr.String
        else pure e) with
    | error err => rw [hstep] at h; simp at h
    | ok e1 =>
      rw [hstep, bind_ok] at h
      rw [ih e1 h]
      have hkey : ∀ kind value, kind ≠ "CNAME" → appendValue e name kind value = Except.ok e1 →
          values e1 k "CNAME" = values e k "CNAME" := by
        intro kind value hkind happ
        unfold appendValue at happ
        cases hek : e name with
        | none => rw [hek] at happ; simp at happ
        | some recs =>
          have hp : e1 = push e name kind value := by
            rw [hek] at happ
            simp only [pure_eq_ok, Except.ok.injEq] at happ
            rw [← happ]
            simp [push, values, hek]
          rw [hp, values_push]
          simp [Ne.symm hkind]
      split_ifs at hstep
      · exact hkey "A" _ (by decide) hstep
      · exact hkey "AAAA" _ (by decide) hstep
      · simp only [pure_eq_ok, Except.ok.injEq] at hstep
        rw [← hstep]

theorem values_pushTags_A (zone hostname : String) (e : Entries) (tags : List String)
    (k kd : String) (hkd : kd ≠ "CNAME") :
    values (pushTags zone hostname e tags) k kd = values e k kd := by
  rw [values_pushTags]
  simp [hkd]

theorem processNetMap_wellFormed (t : Tailscale) (nm : Option NetworkMap)
    (h : wellFormed (Event.notification nm) = true) :
    ∃ t', processNetMap t nm = Except.ok t' := by
  cases nm with
  | none => exact ⟨t, rfl⟩
  | some nm =>
    simp only [wellFormed, Bool.and_eq_true, List.all_eq_true] at h
    obtain ⟨self, peers, hnm⟩ := snapshot_of_valid nm h.1 h.2
    subst hnm
    exact ⟨_, processNetMap_snapshot t self peers⟩

theorem step_succeeds (s : LoopState) (ev : Event) (hr : receivable s.conn ev = true)
    (hw : wellFormed ev = true) :
    ∃ s' acts, step s ev = some (Except.ok (s', acts)) ∧ s'.conn = nextConn s.conn ev := by
  obtain ⟨conn, t⟩ := s
  cases conn <;> cases ev <;> simp only [receivable, Bool.false_eq_true] at hr
  · exact ⟨_, _, rfl, rfl⟩
  · exact ⟨_, _, rfl, rfl⟩
  · rename_i nm
    obtain ⟨t', ht'⟩ := processNetMap_wellFormed t nm hw
    refine ⟨⟨Conn.Subscribed, t'⟩, [], ?_, rfl⟩
    simp only [step, ht', bind_ok, pure_eq_ok]
  · exact ⟨_, _, rfl, rfl⟩

theorem run_scripted (s : LoopState) (events : List Event)
    (h : scripted s.conn events = true) :
    ∃ s' acts, run s events = some (Except.ok (s', acts)) := by
  induction events generalizing s with
  | nil => exact ⟨s, [], rfl⟩
  | cons ev rest ih =>
    simp only [scripted, Bool.and_eq_true] at h
    obtain ⟨s1, acts1, hstep, hconn⟩ := step_succeeds s ev h.1.1 h.1.2
    obtain ⟨s2, acts2, hrun⟩ := ih s1 (by rw [hconn]; exact h.2)
    exact ⟨s2, acts1 ++ acts2, by simp only [run, hstep, hrun]⟩

theorem entries_ext (e₁ e₂ : Entries) (h₁ : RecordsOK e₁) (h₂ : RecordsOK e₂)
    (hkeys : ∀ k, hasKey e₁ k = hasKey e₂ k)
    (hvals : ∀ k kd, values e₁ k kd = values e₂ k kd) : e₁ = e₂ := by
  funext k
  have hk := hkeys k
  cases hr₁ : e₁ k with
  | none =>
    cases hr₂ : e₂ k with
    | none => rfl
    | some r₂ => simp [hasKey, hr₁, hr₂] at hk
  | some r₁ =>
    cases hr₂ : e₂ k with
    | none => simp [hasKey, hr₁, hr₂] at hk
    | some r₂ =>
      congr 1
      funext kd
      have hv := hvals k kd
      simp only [values, hr₁, hr₂] at hv
      cases hv₁ : r₁ kd with
      | none =>
        cases hv₂ : r₂ kd with
        | none => rfl
        | some vs₂ =>
          have := (h₂ k r₂ kd vs₂ hr₂ hv₂).2
          simp [hv₁, hv₂] at hv
          exact absurd hv this
      | some vs₁ =>
        cases hv₂ : r₂ kd with
        | none =>
          have := (h₁ k r₁ kd vs₁ hr₁ hv₁).2
          simp [hv₁, hv₂] at hv
          exact absurd hv this
        | some vs₂ =>
          simp [hv₁, hv₂] at hv
          rw [hv]

theorem tag_app_iff (k : String) : "tag:cname-app" = "tag:cname-" ++ k ↔ k = "app" := by
  constructor
  · intro h
    have h2 := congrArg String.data h
    rw [String.data_append] at h2
    have h3 : ("tag:cname-app" : String).data = ("tag:cname-" : String).data ++ ("app" : String).data := by
      decide
    rw [h3] at h2
    exact (String.ext (List.append_cancel_left h2)).symm
  · intro h
    subst h
    decide

theorem hostnameWithoutSuffix_self : hostnameWithoutSuffix "self" = "self" := by decide

theorem hostnameWithoutSuffix_peer : hostnameWithoutSuffix "peer" = "peer" := by decide

theorem recordsOK_want : RecordsOK want := by
  intro k recs kd vs hk hr
  simp only [want, mapOf, List.lookup] at hk
  split at hk
  · simp only [Option.some.injEq] at hk
    subst hk
    simp only [mapOf, List.lookup] at hr
    split at hr
    · simp_all
      subst hr
      simp
    · split at hr
      · simp_all
        subst hr
        simp
      · simp at hr
  · split at hk
    · simp only [Option.some.injEq] at hk
      subst hk
      simp only [mapOf, List.lookup] at hr
      split at hr
      · simp_all
        subst hr
        simp
      · split at hr
        · simp_all
          subst hr
          simp
        · simp at hr
    · split at hk
      · simp only [Option.some.injEq] at hk
        subst hk
        simp only [mapOf, List.lookup] at hr
        split at hr
        · simp_all
          subst hr
          simp
        · simp at hr
      · simp at hk

theorem eligible_test_nodes :
    [self, peer, shared, mullvad].filter eligible = [self, peer] := by decide

theorem mapOf_nil {α : Type} (k : String) : mapOf ([] : List (String × α)) k = none := rfl

theorem mapOf_cons {α : Type} (a : String) (v : α) (l : List (String × α)) (k : String) :
    mapOf ((a, v) :: l) k = if k = a then some v else mapOf l k := by
  by_cases h : k = a
  · subst h; simp [mapOf, List.lookup]
  · have hb : (k == a) = false := by simpa using h
    simp [mapOf, List.lookup, hb, h]

theorem hasKey_want (k : String) :
    hasKey want k = (decide (k = "self") || decide (k = "peer") || decide (k = "app")) := by
  by_cases h1 : k = "self"
  · subst h1; decide
  · by_cases h2 : k = "peer"
    · subst h2; decide
    · by_cases h3 : k = "app"
      · subst h3; decide
      · simp [hasKey, want, mapOf_cons, mapOf_nil, h1, h2, h3]

theorem hasKey_test_table (k : String) :
    hasKey (buildEntries "example.com" [self, peer, shared, mullvad]) k =
      (decide (k = "self") || decide (k = "peer") || decide (k = "app")) := by
  have h0 : hasKey emptyEntries k = false := rfl
  simp only [buildEntries, hasKey_foldl, eligible_test_nodes, h0, Bool.false_or]
  simp only [List.any_cons, List.any_nil, Bool.or_false, self, peer,
    hostnameWithoutSuffix_self, hostnameWithoutSuffix_peer, tag_app_iff]
  by_cases h1 : k = "self" <;> by_cases h2 : k = "peer" <;> by_cases h3 : k = "app" <;>
    simp [h1, h2, h3]

theorem contribution_self (k kd : String) :
    contribution "example.com" self k kd =
      (if k = "self" then
        (if kd = "A" then ["100.64.0.1"] else if kd = "AAAA" then ["fd7a:115c:a1e0::1"] else [])
      else []) ++
      (if kd = "CNAME" then (if k = "app" then ["self.example.com."] else []) else []) := by
  have h4 : ipv4Strings self.Addresses = ["100.64.0.1"] := by decide
  have h6 : ipv6Strings self.Addresses = ["fd7a:115c:a1e0::1"] := by decide
  have hn : namedBy k self = decide (k = "self") := by
    simp [namedBy, self, hostnameWithoutSuffix_self, eq_comm]
  have ha : aliasTargets "example.com" self k = if k = "app" then ["self.example.com."] else [] := by
    by_cases hk : k = "app"
    · subst hk; decide
    · have : ¬ "tag:cname-app" = "tag:cname-" ++ k := fun h => hk ((tag_app_iff k).1 h)
      simp [aliasTargets, self, hk, this]
  simp only [contribution, hn, ha, addressValues, h4, h6, decide_eq_true_eq]

theorem contribution_peer (k kd : String) :
    contribution "example.com" peer k kd =
      (if k = "peer" then
        (if kd = "A" then ["100.64.0.2"] else if kd = "AAAA" then ["fd7a:115c:a1e0::2"] else [])
      else []) ++
      (if kd = "CNAME" then (if k = "app" then ["peer.example.com."] else []) else []) := by
  have h4 : ipv4Strings peer.Addresses = ["100.64.0.2"] := by decide
  have h6 : ipv6Strings peer.Addresses = ["fd7a:115c:a1e0::2"] := by decide
  have hn : namedBy k peer = decide (k = "peer") := by
    simp [namedBy, peer, hostnameWithoutSuffix_peer, eq_comm]
  have ha : aliasTargets "example.com" peer k = if k = "app" then ["peer.example.com."] else [] := by
    by_cases hk : k = "app"
    · subst hk; decide
    · have : ¬ "tag:cname-app" = "tag:cname-" ++ k := fun h => hk ((tag_app_iff k).1 h)
      simp [aliasTargets, peer, hk, this]
  simp only [contribution, hn, ha, addressValues, h4, h6, decide_eq_true_eq]

theorem values_test_table (k kd : String) :
    values (buildEntries "example.com" [self, peer, shared, mullvad]) k kd = values want k kd := by
  simp only [values_buildEntries, eligible_test_nodes, List.flatMap_cons, List.flatMap_nil,
    List.append_nil, contribution_self, contribution_peer]
  by_cases h1 : k = "self"
  · subst h1
    by_cases a1 : kd = "A"
    · subst a1; decide
    · by_cases a2 : kd = "AAAA"
      · subst a2; decide
      · by_cases a3 : kd = "CNAME"
        · subst a3; decide
        · simp [values, want, mapOf_cons, mapOf_nil, a1, a2, a3]
  · by_cases h2 : k = "peer"
    · subst h2
      by_cases a1 : kd = "A"
      · subst a1; decide
      · by_cases a2 : kd = "AAAA"
        · subst a2; decide
        · by_cases a3 : kd = "CNAME"
          · subst a3; decide
          · simp [values, want, mapOf_cons, mapOf_nil, a1, a2, a3]
    · by_cases h3 : k = "app"
      · subst h3
        by_cases a1 : kd = "A"
        · subst a1; decide
        · by_cases a2 : kd = "AAAA"
          · subst a2; decide
          · by_cases a3 : kd = "CNAME"
            · subst a3; decide
            · simp [values, want, mapOf_cons, mapOf_nil, a1, a2, a3]
      · simp [values, want, mapOf_cons, mapOf_nil, h1, h2, h3]

/-! ## The claims -/

/-- C1: for a snapshot with a self node, the `A` list under any name `k` in the
published table is the concatenation, over the eligible nodes in the order self
then peers, of the IPv4 address strings of every node whose hostname is `k` or
whose `hostnameWithoutSuffix` is `k` and differs from its hostname; the `AAAA`
list is the same with the IPv6 addresses. -/
theorem C1_address_lists (t : Tailscale) (self : Node) (peers : List Node) (k : String) :
    ∃ t', processNetMap t (some (snapshot self peers)) = Except.ok t' ∧
      values t'.entries k "A" =
        (((self :: peers).filter eligible).filter (namedBy k)).flatMap
          (fun n => ipv4Strings n.Addresses) ∧
      values t'.entries k "AAAA" =
        (((self :: peers).filter eligible).filter (namedBy k)).flatMap
          (fun n => ipv6Strings n.Addresses) :=
  ⟨_, processNetMap_snapshot t self peers, values_buildEntries_A _ _ k,
    values_buildEntries_AAAA _ _ k⟩

/-- C2: for a snapshot with a self node, the `CNAME` list under any alias `a`
in the published table is the concatenation, over the eligible nodes in the
order self then peers and over each node's tags in tag order, of one value
`<hostname>.<zone>.` for every tag equal to `tag:cname-` followed by `a`. -/
theorem C2_cname_lists (t : Tailscale) (self : Node) (peers : List Node) (a : String) :
    ∃ t', processNetMap t (some (snapshot self peers)) = Except.ok t' ∧
      values t'.entries a "CNAME" =
        ((self :: peers).filter eligible).flatMap (fun n =>
          (n.Tags.filter (fun raw => decide (raw = "tag:cname-" ++ a))).map
            (fun _ => n.ComputedName ++ "." ++ t.zone ++ ".")) := by
  refine ⟨_, processNetMap_snapshot t self peers, ?_⟩
  simp only [values_buildEntries]
  congr 1
  funext n
  simp [contribution, addressValues, aliasTargets]

/-- C3: two snapshots whose lists `self, then peers` agree once every
WireGuard-only node and every node with a non-zero sharer is dropped make
`processNetMap` publish the same table. -/
theorem C3_skipped_nodes (t₁ t₂ : Tailscale) (self₁ self₂ : Node) (peers₁ peers₂ : List Node)
    (hzone : t₁.zone = t₂.zone)
    (hnodes : (self₁ :: peers₁).filter eligible = (self₂ :: peers₂).filter eligible) :
    ∃ table : Entries,
      processNetMap t₁ (some (snapshot self₁ peers₁)) = Except.ok { t₁ with entries := table } ∧
      processNetMap t₂ (some (snapshot self₂ peers₂)) = Except.ok { t₂ with entries := table } := by
  refine ⟨buildEntries t₁.zone (self₁ :: peers₁), processNetMap_snapshot t₁ self₁ peers₁, ?_⟩
  rw [processNetMap_snapshot t₂ self₂ peers₂]
  simp only [buildEntries, hzone, hnodes]

/-- C3 at the snapshot of `TestProcessNetMap` and the same snapshot without
its shared node and its Mullvad node. -/
theorem C3_skipped_nodes_witness :
    ts.zone = ts.zone ∧
    (self :: [peer, shared, mullvad]).filter eligible = (self :: [peer]).filter eligible ∧
    ∃ table : Entries,
      processNetMap ts (some (snapshot self [peer, shared, mullvad])) =
        Except.ok { ts with entries := table } ∧
      processNetMap ts (some (snapshot self [peer])) = Except.ok { ts with entries := table } :=
  ⟨rfl, by decide, C3_skipped_nodes ts ts self self [peer, shared, mullvad] [peer] rfl (by decide)⟩

/-- C4: when every node is eligible and named `p-<digits>` for one prefix `p`
without a line feed, the published table has the key `p`, whose `A` and `AAAA`
lists hold the addresses of all nodes in the order self then peers, and every
node's own hostname is a key whose lists hold the addresses of the nodes that
bear exactly that hostname. -/
theorem C4_suffix_grouping (t : Tailscale) (self : Node) (peers : List Node) (p : String)
    (hp : '\n' ∉ p.data)
    (hall : ∀ n ∈ self :: peers, eligible n = true ∧
      ∃ ds : List Char, ds ≠ [] ∧ (∀ c ∈ ds, isDigit c = true) ∧
        n.ComputedName = p ++ "-" ++ String.mk ds) :
    ∃ t', processNetMap t (some (snapshot self peers)) = Except.ok t' ∧
      hasKey t'.entries p = true ∧
      values t'.entries p "A" = (self :: peers).flatMap (fun n => ipv4Strings n.Addresses) ∧
      values t'.entries p "AAAA" = (self :: peers).flatMap (fun n => ipv6Strings n.Addresses) ∧
      ∀ n ∈ self :: peers,
        hasKey t'.entries n.ComputedName = true ∧
        values t'.entries n.ComputedName "A" =
          ((self :: peers).filter (fun m => decide (m.ComputedName = n.ComputedName))).flatMap
            (fun m => ipv4Strings m.Addresses) ∧
        values t'.entries n.ComputedName "AAAA" =
          ((self :: peers).filter (fun m => decide (m.ComputedName = n.ComputedName))).flatMap
            (fun m => ipv6Strings m.Addresses) := by
  have helig : (self :: peers).filter eligible = self :: peers :=
    List.filter_eq_self.2 (fun n hn => (hall n hn).1)
  have hbase : ∀ n ∈ self :: peers, hostnameWithoutSuffix n.ComputedName = p ∧
      n.ComputedName ≠ p := by
    intro n hn
    obtain ⟨_, ds, hne, hds, hname⟩ := hall n hn
    rw [hname]
    exact ⟨hostnameWithoutSuffix_suffixed p ds hp hne hds, suffixed_ne p ds⟩
  have hp_all : (self :: peers).filter (namedBy p) = self :: peers :=
    List.filter_eq_self.2 (fun n hn => by
      obtain ⟨h1, h2⟩ := hbase n hn
      simp [namedBy, h1, h2, Ne.symm h2])
  have hown : ∀ n ∈ self :: peers, (self :: peers).filter (namedBy n.ComputedName) =
      (self :: peers).filter (fun m => decide (m.ComputedName = n.ComputedName)) := by
    intro n hn
    apply List.filter_congr
    intro m hm
    obtain ⟨h1, h2⟩ := hbase m hm
    obtain ⟨_, h4⟩ := hbase n hn
    simp [namedBy, h1, Ne.symm h4]
  refine ⟨_, processNetMap_snapshot t self peers, ?_, ?_, ?_, ?_⟩
  · exact (hasKey_buildEntries _ _ p).2 ⟨self, List.mem_cons_self _ _,
      (hall self (List.mem_cons_self _ _)).1,
      Or.inr (Or.inl (hbase self (List.mem_cons_self _ _)).1)⟩
  · show values (buildEntries t.zone (self :: peers)) p "A" = _
    rw [values_buildEntries_A, helig, hp_all]
  · show values (buildEntries t.zone (self :: peers)) p "AAAA" = _
    rw [values_buildEntries_AAAA, helig, hp_all]
  · intro n hn
    refine ⟨(hasKey_buildEntries _ _ _).2 ⟨n, hn, (hall n hn).1, Or.inl rfl⟩, ?_, ?_⟩
    · show values (buildEntries t.zone (self :: peers)) n.ComputedName "A" = _
      rw [values_buildEntries_A, helig, hown n hn]
    · show values (buildEntries t.zone (self :: peers)) n.ComputedName "AAAA" = _
      rw [values_buildEntries_AAAA, helig, hown n hn]

/-- C4 at the nodes `web-1`, `web-2`, `web-3` of `TestProcessNetMapHostnameGrouping`. -/
theorem C4_suffix_grouping_witness :
    ∃ t', processNetMap ts (some (snapshot web1 [web2, web3])) = Except.ok t' ∧
      hasKey t'.entries "web" = true ∧
      values t'.entries "web" "A" =
        [web1, web2, web3].flatMap (fun n => ipv4Strings n.Addresses) ∧
      values t'.entries "web" "AAAA" =
        [web1, web2, web3].flatMap (fun n => ipv6Strings n.Addresses) ∧
      ∀ n ∈ [web1, web2, web3],
        hasKey t'.entries n.ComputedName = true ∧
        values t'.entries n.ComputedName "A" =
          ([web1, web2, web3].filter (fun m => decide (m.ComputedName = n.ComputedName))).flatMap
            (fun m => ipv4Strings m.Addresses) ∧
        values t'.entries n.ComputedName "AAAA" =
          ([web1, web2, web3].filter (fun m => decide (m.ComputedName = n.ComputedName))).flatMap
            (fun m => ipv6Strings m.Addresses) :=
  C4_suffix_grouping ts web1 [web2, web3] "web" (by decide) (by
    intro n hn
    simp only [List.mem_cons, List.mem_singleton, List.not_mem_nil, or_false] at hn
    rcases hn with rfl | rfl | rfl
    · exact ⟨rfl, ['1'], by simp, by decide, by decide⟩
    · exact ⟨rfl, ['2'], by simp, by decide, by decide⟩
    · exact ⟨rfl, ['3'], by simp, by decide, by decide⟩)

/-- C5 fails on the code: the hostname `web-1a` does not end in a hyphen and
digits, yet `processNetMap` creates the base-name entry `web` and files the
node's address there. -/
theorem C5_midname_digits_grouped :
    endsInHyphenDigits web1a.ComputedName = false ∧
    (processNetMap ts (some (snapshot web1a []))).toOption.map
        (fun t' => (hasKey t'.entries "web", values t'.entries "web" "A")) =
      some (true, ["100.64.0.1"]) := by
  decide

/-- C6: the published table is a function of the snapshot and the zone only.
Whatever table, socket path and client the state held before, `processNetMap`
leaves the same table, and running it again on the state it returned changes nothing. -/
theorem C6_replacement_total (zone : String) (self : Node) (peers : List Node) :
    ∃ table : Entries,
      (∀ (socketPath : String) (lc : Option LocalClient) (prior : Entries),
        processNetMap ⟨zone, socketPath, lc, prior⟩ (some (snapshot self peers)) =
          Except.ok ⟨zone, socketPath, lc, table⟩) ∧
      (∀ (socketPath : String) (lc : Option LocalClient) (prior : Entries),
        (processNetMap ⟨zone, socketPath, lc, prior⟩ (some (snapshot self peers)) >>=
            fun t' => processNetMap t' (some (snapshot self peers))) =
          Except.ok ⟨zone, socketPath, lc, table⟩) := by
  refine ⟨buildEntries zone (self :: peers), ?_, ?_⟩
  · intro socketPath lc prior
    exact processNetMap_snapshot _ self peers
  · intro socketPath lc prior
    rw [processNetMap_snapshot, bind_ok, processNetMap_snapshot]

/-- C7: `processNetMap` called with a nil network map returns the state it was
given: the table and every other field are unchanged. -/
theorem C7_nil_is_noop (t : Tailscale) : processNetMap t none = Except.ok t := rfl

/-- C8 fails on the code: on a non-nil network map whose self node is the zero
view, `processNetMap` panics with a nil dereference, whatever the peers. -/
theorem C8_absent_self_panics (t : Tailscale) (peers : List NodeView) :
    processNetMap t (some ⟨⟨none⟩, peers⟩) = Except.error Panic.nilDeref := rfl

/-- C9: for a snapshot with a self node, a string is a key of the published
table exactly when it is the computed hostname of an eligible node, or the
`hostnameWithoutSuffix` of such a hostname, or the alias of a tag
`tag:cname-<alias>` on an eligible node. -/
theorem C9_key_provenance (t : Tailscale) (self : Node) (peers : List Node) (k : String) :
    ∃ t', processNetMap t (some (snapshot self peers)) = Except.ok t' ∧
      (hasKey t'.entries k = true ↔
        ∃ n ∈ self :: peers, eligible n = true ∧
          (n.ComputedName = k ∨ hostnameWithoutSuffix n.ComputedName = k ∨
            ∃ raw ∈ n.Tags, raw = "tag:cname-" ++ k)) :=
  ⟨_, processNetMap_snapshot t self peers, hasKey_buildEntries t.zone (self :: peers) k⟩

/-- C10: in the published table the only record kinds are `A`, `AAAA` and
`CNAME`; every `A` value is the string form of an IPv4 address, every `AAAA`
value the string form of an IPv6 address, and every `CNAME` value ends in a dot. -/
theorem C10_record_kinds (t : Tailscale) (self : Node) (peers : List Node) :
    ∃ t', processNetMap t (some (snapshot self peers)) = Except.ok t' ∧
      ∀ k recs kd vs, t'.entries k = some recs → recs kd = some vs →
        (kd = "A" ∧ ∀ v ∈ vs, ∃ a : Addr, a.Is4 = true ∧ v = a.String) ∨
        (kd = "AAAA" ∧ ∀ v ∈ vs, ∃ a : Addr, a.Is6 = true ∧ v = a.String) ∨
        (kd = "CNAME" ∧ ∀ v ∈ vs, ∃ s : String, v = s ++ ".") := by
  refine ⟨_, processNetMap_snapshot t self peers, ?_⟩
  intro k recs kd vs hk hr
  have hv := values_of_some _ k kd recs vs hk hr
  simp only [values_buildEntries] at hv
  have hkind := (recordsOK_buildEntries t.zone (self :: peers) k recs kd vs hk hr).1
  rcases hkind with hA | hA | hC
  · subst hA
    refine Or.inl ⟨rfl, ?_⟩
    intro v hvs
    rw [← hv] at hvs
    simp only [List.mem_flatMap, contribution, addressValues] at hvs
    obtain ⟨n, _, hn⟩ := hvs
    have : v ∈ ipv4Strings n.Addresses := by
      split_ifs at hn <;> simp_all
    exact mem_ipv4Strings v _ this
  · subst hA
    refine Or.inr (Or.inl ⟨rfl, ?_⟩)
    intro v hvs
    rw [← hv] at hvs
    simp only [List.mem_flatMap, contribution, addressValues] at hvs
    obtain ⟨n, _, hn⟩ := hvs
    have : v ∈ ipv6Strings n.Addresses := by
      split_ifs at hn <;> simp_all
    exact mem_ipv6Strings v _ this
  · subst hC
    refine Or.inr (Or.inr ⟨rfl, ?_⟩)
    intro v hvs
    rw [← hv] at hvs
    simp only [List.mem_flatMap, contribution, addressValues, aliasTargets] at hvs
    obtain ⟨n, _, hn⟩ := hvs
    have : v = n.ComputedName ++ "." ++ t.zone ++ "." := by
      split_ifs at hn <;> simp_all
    exact ⟨n.ComputedName ++ "." ++ t.zone, this⟩

/-- C11: an address that is neither IPv4 nor IPv6 is passed over: `processNetMap`
returns normally and publishes the table it publishes for the snapshot with
every such address removed from the nodes' address lists. -/
theorem C11_non_ip_address_excluded (t : Tailscale) (self : Node) (peers : List Node) :
    ∃ t', processNetMap t (some (snapshot self peers)) = Except.ok t' ∧
      processNetMap t (some (snapshot (dropNonIP self) (peers.map dropNonIP))) =
        Except.ok t' := by
  refine ⟨_, processNetMap_snapshot t self peers, ?_⟩
  rw [processNetMap_snapshot]
  have h := buildEntries_dropNonIP t.zone (self :: peers)
  simp only [List.map_cons] at h
  rw [h]

/-- C11 at the self node of `TestProcessNetMap` with two zero addresses added:
the table is the one for the snapshot without them. -/
theorem C11_non_ip_address_excluded_witness :
    dropNonIP selfWithZero = self ∧
    ∃ t', processNetMap ts (some (snapshot selfWithZero [])) = Except.ok t' ∧
      processNetMap ts (some (snapshot (dropNonIP selfWithZero) ([].map dropNonIP))) =
        Except.ok t' :=
  ⟨by decide, C11_non_ip_address_excluded ts selfWithZero []⟩

/-- C12: for the snapshot of `TestProcessNetMap` and the zone `example.com`,
`processNetMap` publishes exactly the table the test expects: the entries
`self` and `peer` with their `A` and `AAAA` lists, the entry `app` with its two
`CNAME` values, and no other key or record kind. -/
theorem C12_end_to_end_scenario :
    processNetMap ts (some (snapshot self [peer, shared, mullvad])) =
      Except.ok { ts with entries := want } := by
  rw [processNetMap_snapshot]
  have h : buildEntries ts.zone [self, peer, shared, mullvad] = want :=
    entries_ext _ _ (recordsOK_buildEntries _ _) recordsOK_want
      (fun k => by
        show hasKey (buildEntries "example.com" [self, peer, shared, mullvad]) k = _
        rw [hasKey_test_table, hasKey_want])
      (fun k kd => values_test_table k kd)
  rw [h]

/-- C14: in the loop of `watchIPNBus`, seen as a step relation over the waiting
points Disconnected and Subscribed, every state has a successor for every event
it can receive (the one way a step yields no successor is a panic inside
`processNetMap`, which no well-formed notification causes), no state is
terminal, and driven through any list of answers of the daemon the loop is
still at a waiting point: it has not returned. -/
theorem C14_loop_never_terminates :
    (∀ (s : LoopState) (ev : Event), receivable s.conn ev = true → wellFormed ev = true →
      ∃ s' acts, step s ev = some (Except.ok (s', acts))) ∧
    (∀ (s : LoopState) (ev : Event), receivable s.conn ev = true →
      (∃ s' acts, step s ev = some (Except.ok (s', acts))) ∨
      (∃ nm p, ev = Event.notification (some nm) ∧
        processNetMap s.t (some nm) = Except.error p ∧ step s ev = some (Except.error p))) ∧
    (∀ s : LoopState, ∃ ev s' acts,
      receivable s.conn ev = true ∧ step s ev = some (Except.ok (s', acts))) ∧
    (∀ (t : Tailscale) (events : List Event), scripted Conn.Disconnected events = true →
      ∃ s' acts, watchIPNBus t events = some (Except.ok (s', acts))) := by
  refine ⟨?_, ?_, ?_, ?_⟩
  · intro s ev hr hw
    obtain ⟨s', acts, h, _⟩ := step_succeeds s ev hr hw
    exact ⟨s', acts, h⟩
  · intro s ev hr
    obtain ⟨conn, t⟩ := s
    cases conn <;> cases ev <;> simp only [receivable, Bool.false_eq_true] at hr
    · exact Or.inl ⟨_, _, rfl⟩
    · exact Or.inl ⟨_, _, rfl⟩
    · rename_i nm
      cases hp : processNetMap t nm with
      | ok t' =>
        exact Or.inl ⟨⟨Conn.Subscribed, t'⟩, [], by simp only [step, hp, bind_ok, pure_eq_ok]⟩
      | error p =>
        cases nm with
        | none => simp [processNetMap] at hp
        | some nm =>
          exact Or.inr ⟨nm, p, rfl, hp, by simp only [step, hp, bind_error]⟩
    · exact Or.inl ⟨_, _, rfl⟩
  · intro s
    obtain ⟨conn, t⟩ := s
    cases conn
    · exact ⟨Event.openFails, _, _, rfl, rfl⟩
    · exact ⟨Event.readError, _, _, rfl, rfl⟩
  · intro t events h
    exact run_scripted _ events h

/-- C14 on one run: an open failure, an open, the snapshot of
`TestProcessNetMap`, a notification without a network map, a read error and a
new open leave the loop waiting for the next notification. -/
theorem C14_loop_never_terminates_witness :
    scripted Conn.Disconnected
        [Event.openFails, Event.openSucceeds,
         Event.notification (some (snapshot self [peer, shared, mullvad])),
         Event.notification none, Event.readError, Event.openSucceeds] = true ∧
    ∃ s' acts,
      watchIPNBus ts
        [Event.openFails, Event.openSucceeds,
         Event.notification (some (snapshot self [peer, shared, mullvad])),
         Event.notification none, Event.readError, Event.openSucceeds] =
        some (Except.ok (s', acts)) :=
  ⟨by decide, C14_loop_never_terminates.2.2.2 ts _ (by decide)⟩

/-- C15: `start` returns nil after the `go` statement that launches the loop,
whatever `os.Stat` answers; an empty socket path becomes `DefaultSocketPath`,
a non-empty one stays, and the zone and the table are unchanged. -/
theorem C15_start_returns_nil (t : Tailscale) (stat : String → Option StatError) :
    (start t stat).err = none ∧
    Action.goWatchIPNBus ∈ (start t stat).actions ∧
    DefaultSocketPath = "/tmp/tailscale/tailscaled.sock" ∧
    (start t stat).t.socketPath =
      (if t.socketPath = "" then DefaultSocketPath else t.socketPath) ∧
    (start t stat).t.lc = some { Socket := (start t stat).t.socketPath } ∧
    (start t stat).t.zone = t.zone ∧
    (start t stat).t.entries = t.entries := by
  refine ⟨rfl, ?_, rfl, ?_, rfl, ?_, ?_⟩
  · simp [start]
  · by_cases h : t.socketPath = "" <;> simp [start, h]
  · by_cases h : t.socketPath = "" <;> simp [start, h]
  · by_cases h : t.socketPath = "" <;> simp [start, h]

/-- C16: a failed open is followed by a sleep of one minute and leaves the
table as it is; a read error closes the watcher and leads back to the open
attempt with no sleep, the table as it is; a notification that `processNetMap`
handles keeps the loop subscribed, with no sleep. -/
theorem C16_backoff_only_on_open_failure (t : Tailscale) :
    step { conn := Conn.Disconnected, t := t } Event.openFails =
      some (Except.ok ({ conn := Conn.Disconnected, t := t },
        [Action.logInfo "unable to read from Tailscale event bus, retrying in 1 minute",
         Action.sleep 60000000000])) ∧
    step { conn := Conn.Subscribed, t := t } Event.readError =
      some (Except.ok ({ conn := Conn.Disconnected, t := t }, [Action.closeWatcher])) ∧
    (∀ ev : Event, receivable Conn.Disconnected ev = true →
      run { conn := Conn.Subscribed, t := t } [Event.readError, ev] =
        (step { conn := Conn.Disconnected, t := t } ev).map
          (fun r => r.map (fun p => (p.1, Action.closeWatcher :: p.2)))) ∧
    (∀ (nm : Option NetworkMap) (t' : Tailscale), processNetMap t nm = Except.ok t' →
      step { conn := Conn.Subscribed, t := t } (Event.notification nm) =
        some (Except.ok ({ conn := Conn.Subscribed, t := t' }, []))) ∧
    (∀ nm : Option NetworkMap, wellFormed (Event.notification nm) = true →
      ∃ t', step { conn := Conn.Subscribed, t := t } (Event.notification nm) =
        some (Except.ok ({ conn := Conn.Subscribed, t := t' }, []))) := by
  refine ⟨rfl, rfl, ?_, ?_, ?_⟩
  · intro ev hev
    cases ev <;> simp only [receivable, Bool.false_eq_true] at hev <;> rfl
  · intro nm t' h
    simp only [step, h, bind_ok, pure_eq_ok]
  · intro nm hw
    obtain ⟨t', ht'⟩ := processNetMap_wellFormed t nm hw
    exact ⟨t', by simp only [step, ht', bind_ok, pure_eq_ok]⟩

/-- C17 fails on the code: for the nodes `web-1`, `web-2`, `web-3` of
`TestProcessNetMapHostnameGrouping` the `A` list of the entry `web` has three elements. -/
theorem C17_grouped_list_has_three :
    ∃ t', processNetMap ts (some (snapshot web1 [web2, web3])) = Except.ok t' ∧
      values t'.entries "web" "A" = ["100.64.0.10", "100.64.0.11", "100.64.0.12"] ∧
      ¬ (values t'.entries "web" "A").length ≤ 1 :=
  ⟨_, processNetMap_snapshot ts web1 [web2, web3], by decide, by decide⟩

/-- C17, amended: when every node has at most one IPv4 and at most one IPv6
address, the `A` list and the `AAAA` list under a name `k` have at most as many
elements as there are eligible nodes whose hostname or `hostnameWithoutSuffix`
is `k`. -/
theorem C17_one_value_per_node (t : Tailscale) (self : Node) (peers : List Node) (k : String)
    (haddrs : ∀ n ∈ self :: peers,
      (ipv4Strings n.Addresses).length ≤ 1 ∧ (ipv6Strings n.Addresses).length ≤ 1) :
    ∃ t', processNetMap t (some (snapshot self peers)) = Except.ok t' ∧
      (values t'.entries k "A").length ≤
        (((self :: peers).filter eligible).filter (namedBy k)).length ∧
      (values t'.entries k "AAAA").length ≤
        (((self :: peers).filter eligible).filter (namedBy k)).length := by
  have hmem : ∀ n ∈ ((self :: peers).filter eligible).filter (namedBy k), n ∈ self :: peers :=
    fun n hn => List.mem_of_mem_filter (List.mem_of_mem_filter hn)
  refine ⟨_, processNetMap_snapshot t self peers, ?_, ?_⟩
  · show (values (buildEntries t.zone (self :: peers)) k "A").length ≤ _
    rw [values_buildEntries_A]
    exact length_flatMap_le _ _ (fun n hn => (haddrs n (hmem n hn)).1)
  · show (values (buildEntries t.zone (self :: peers)) k "AAAA").length ≤ _
    rw [values_buildEntries_AAAA]
    exact length_flatMap_le _ _ (fun n hn => (haddrs n (hmem n hn)).2)

/-- C17, amended, at the snapshot of `TestProcessNetMap` and the name `self`:
one eligible node bears the name, so its lists have at most one element. -/
theorem C17_one_value_per_node_witness :
    (((self :: [peer, shared, mullvad]).filter eligible).filter (namedBy "self")).length = 1 ∧
    ∃ t', processNetMap ts (some (snapshot self [peer, shared, mullvad])) = Except.ok t' ∧
      (values t'.entries "self" "A").length ≤
        (((self :: [peer, shared, mullvad]).filter eligible).filter (namedBy "self")).length ∧
      (values t'.entries "self" "AAAA").length ≤
        (((self :: [peer, shared, mullvad]).filter eligible).filter (namedBy "self")).length :=
  ⟨by decide, C17_one_value_per_node ts self [peer, shared, mullvad] "self" (by decide)⟩

/-- C18: the tag loop leaves every `A` and `AAAA` list as it was and the
address loop leaves every `CNAME` list as it was; so in the published table the
entry under any name `k` carries at once the full `A` and `AAAA` lists of the
eligible nodes named `k` and the full `CNAME` list of the eligible nodes tagged
`tag:cname-k`. -/
theorem C18_aliases_and_hostnames_coexist (t : Tailscale) (self : Node) (peers : List Node)
    (k : String) :
    (∀ (hostname : String) (e : Entries) (tags : List String),
      ∃ e', addTags t.zone hostname e tags = Except.ok e' ∧
        values e' k "A" = values e k "A" ∧ values e' k "AAAA" = values e k "AAAA") ∧
    (∀ (name : String) (e e' : Entries) (addresses : List Prefix),
      addAddresses e name addresses = Except.ok e' →
        values e' k "CNAME" = values e k "CNAME") ∧
    ∃ t', processNetMap t (some (snapshot self peers)) = Except.ok t' ∧
      values t'.entries k "A" =
        (((self :: peers).filter eligible).filter (namedBy k)).flatMap
          (fun n => ipv4Strings n.Addresses) ∧
      values t'.entries k "AAAA" =
        (((self :: peers).filter eligible).filter (namedBy k)).flatMap
          (fun n => ipv6Strings n.Addresses) ∧
      values t'.entries k "CNAME" =
        ((self :: peers).filter eligible).flatMap (fun n =>
          (n.Tags.filter (fun raw => decide (raw = "tag:cname-" ++ k))).map
            (fun _ => n.ComputedName ++ "." ++ t.zone ++ ".")) := by
  refine ⟨?_, ?_, _, processNetMap_snapshot t self peers, values_buildEntries_A _ _ k,
    values_buildEntries_AAAA _ _ k, ?_⟩
  · intro hostname e tags
    exact ⟨_, addTags_eq _ _ _ _, values_pushTags_A _ _ _ _ _ _ (by decide),
      values_pushTags_A _ _ _ _ _ _ (by decide)⟩
  · intro name e e' addresses h
    exact values_addAddresses_CNAME e e' name addresses h k
  · show values (buildEntries t.zone (self :: peers)) k "CNAME" = _
    rw [values_buildEntries_CNAME]
    rfl

/-- C19: the computed hostname of every eligible node, and its
`hostnameWithoutSuffix`, is a key of the published table whatever addresses the
node has; an entry under a name for which no eligible node contributes an
address and which no alias tag names has no record kind at all; and no list
present in an entry is empty. -/
theorem C19_keys_without_records (t : Tailscale) (self : Node) (peers : List Node) :
    ∃ t', processNetMap t (some (snapshot self peers)) = Except.ok t' ∧
      (∀ n ∈ self :: peers, eligible n = true →
        hasKey t'.entries n.ComputedName = true ∧
        hasKey t'.entries (hostnameWithoutSuffix n.ComputedName) = true) ∧
      (∀ k recs, t'.entries k = some recs →
        (∀ n ∈ self :: peers, eligible n = true → namedBy k n = true →
          ipv4Strings n.Addresses = [] ∧ ipv6Strings n.Addresses = []) →
        (∀ n ∈ self :: peers, eligible n = true → "tag:cname-" ++ k ∉ n.Tags) →
        ∀ kd, recs kd = none) ∧
      (∀ k recs kd vs, t'.entries k = some recs → recs kd = some vs → vs ≠ []) := by
  refine ⟨_, processNetMap_snapshot t self peers, ?_, ?_, ?_⟩
  · intro n hn he
    exact ⟨(hasKey_buildEntries _ _ _).2 ⟨n, hn, he, Or.inl rfl⟩,
      (hasKey_buildEntries _ _ _).2 ⟨n, hn, he, Or.inr (Or.inl rfl)⟩⟩
  · intro k recs hk haddr htag kd
    cases hr : recs kd with
    | none => rfl
    | some vs =>
      exfalso
      obtain ⟨hkind, hne⟩ := recordsOK_buildEntries t.zone (self :: peers) k recs kd vs hk hr
      have hv := values_of_some _ k kd recs vs hk hr
      apply hne
      rw [← hv]
      rcases hkind with hA | hA | hC
      · subst hA
        rw [values_buildEntries_A]
        apply flatMap_eq_nil_of
        intro n hn
        have h1 := List.mem_of_mem_filter hn
        have h2 := (List.mem_filter.1 hn).2
        exact (haddr n (List.mem_of_mem_filter h1) (List.mem_filter.1 h1).2 h2).1
      · subst hA
        rw [values_buildEntries_AAAA]
        apply flatMap_eq_nil_of
        intro n hn
        have h1 := List.mem_of_mem_filter hn
        have h2 := (List.mem_filter.1 hn).2
        exact (haddr n (List.mem_of_mem_filter h1) (List.mem_filter.1 h1).2 h2).2
      · subst hC
        rw [values_buildEntries_CNAME]
        apply flatMap_eq_nil_of
        intro n hn
        have h1 := List.mem_filter.1 hn
        have h3 := htag n h1.1 h1.2
        simp only [aliasTargets, List.map_eq_nil_iff, List.filter_eq_nil_iff, decide_eq_true_eq]
        intro raw hraw heq
        exact h3 (heq ▸ hraw)
  · intro k recs kd vs hk hr
    exact (recordsOK_buildEntries t.zone (self :: peers) k recs kd vs hk hr).2

end CoreDNS
